import Mathlib

/-!
Verification of the dominator-tree construction of `src/analysis/DominatorTree.cpp`.

The C++ code consumes a control-flow graph (CFG) whose nodes are basic blocks
and whose directed edges carry two predicates, `isBackEdge(predecessorKey)` and
`isWorkGroupLoop`.  It produces a dominator tree: for every CFG node at most one
parent (its immediate dominator).  We embed the algorithm shallowly:

* CFG nodes are natural numbers; edges are records carrying both flags
  (`isBackEdge` is the value of `edge.data.isBackEdge(predecessor.key)` for the
  edge's traversal direction).
* The C++ `FastMap`/`FastSet` working structures (`dominatorChains`,
  `predecessors`, the tree's adjacency) become association lists; a chain entry
  is an `Option Nat`, with `none` standing for the null "no dominator" sentinel
  that the code stores for root nodes.
* The unbounded `while(!predecessors.empty())` loop becomes a fuel-indexed
  loop `runLoop`; `none` means the fuel was exhausted with the pending set
  still non-empty (the C++ code would still be spinning).
-/

namespace VC4C

/-- A directed CFG edge together with the data the dominator analysis reads:
`isBackEdge` is the result of `edge.data.isBackEdge(source.key)` and
`isWorkGroupLoop` is `edge.data.isWorkGroupLoop`. -/
structure CFGEdge where
  source : Nat
  target : Nat
  isBackEdge : Bool
  isWorkGroupLoop : Bool
deriving DecidableEq, Repr

/-- A control-flow graph: the node keys and the edge list.  `nodes` mirrors
`cfg.getNodes()`; incoming edges of `n` are the edges with `target = n`. -/
structure ControlFlowGraph where
  nodes : List Nat
  edges : List CFGEdge
deriving DecidableEq, Repr

/-- Association-list lookup (first entry wins), standing for `FastMap::find`. -/
def alookup {β : Type} (k : Nat) : List (Nat × β) → Option β
  | [] => none
  | (k', v) :: rest => if k' = k then some v else alookup k rest

/-- Replace the value stored for `k` (first occurrence). -/
def updateA {β : Type} (k : Nat) (v : β) : List (Nat × β) → List (Nat × β)
  | [] => []
  | (k', v') :: rest => if k' = k then (k', v) :: rest else (k', v') :: updateA k v rest

/-- Models `FastMap::emplace`: insert `(k, v)` only if `k` is not yet bound. -/
def emplaceA {β : Type} (k : Nat) (v : β) (m : List (Nat × β)) : List (Nat × β) :=
  if (alookup k m).isSome then m else (k, v) :: m

/-- The keys of an association list. -/
def keysOf {β : Type} (m : List (Nat × β)) : List Nat := m.map Prod.fst

/-- Deduplication keeping the first occurrence, the membership behaviour of
inserting into a `FastSet` one element at a time. -/
def dedupFirst (l : List Nat) : List Nat :=
  l.foldl (fun acc x => if x ∈ acc then acc else acc ++ [x]) []

/-- Translation of `getDominatorCandidates` (DominatorTree.cpp:16-30): all predecessors of
`node` reached by an incoming edge that is neither a back edge (from the
predecessor's perspective) nor a work-group loop edge, with `node` itself
removed from the set afterwards. -/
def getDominatorCandidates (cfg : ControlFlowGraph) (node : Nat) : List Nat :=
  let possibleDominators := dedupFirst <| cfg.edges.filterMap fun e =>
    if e.target = node ∧ e.isBackEdge = false ∧ e.isWorkGroupLoop = false then
      some e.source
    else none
  possibleDominators.filter (fun p => p ≠ node)

/-- A dominator chain: nearest dominator first, `none` is the null sentinel. -/
abbrev Chain := List (Option Nat)

/-- The working state of `DominatorTree::createDominatorTree`:
`treeNodes` are the nodes created in the result tree (`getOrCreateNode`),
`parents` are the recorded tree edges as (child, immediate dominator) pairs
(`addEdge(&entry, {})` adds one incoming edge to the child), `chains` is the
`dominatorChains` map and `pending` the `predecessors` map. -/
structure BuildState where
  treeNodes : List Nat
  parents : List (Nat × Nat)
  chains : List (Nat × Chain)
  pending : List (Nat × List Nat)
deriving DecidableEq, Repr

/-- Models `DominatorTree::getOrCreateNode`: create the tree node if absent. -/
def addTreeNode (n : Nat) (tn : List Nat) : List Nat :=
  if n ∈ tn then tn else n :: tn

/-- One step of phase 1 (DominatorTree.cpp:41-64) for a single CFG node:
create its tree node, compute its candidates, and either record it as a root
(empty chain sentinel), resolve it directly (single candidate, tree edge
candidate→node, chain `[candidate] ++ candidate's chain if known`), or defer
it to the pending map. -/
def initStep (cfg : ControlFlowGraph) (s : BuildState) (n : Nat) : BuildState :=
  let s1 : BuildState := { s with treeNodes := addTreeNode n s.treeNodes }
  let tmp := getDominatorCandidates cfg n
  match tmp with
  | [] => { s1 with chains := emplaceA n [none] s1.chains }
  | [c] =>
      let tn2 := addTreeNode c s1.treeNodes
      let pa2 := (n, c) :: s1.parents
      let tail := (alookup c s1.chains).getD []
      let ch2 := match alookup n s1.chains with
                 | some old => updateA n (old ++ tail) s1.chains
                 | none => (n, some c :: tail) :: s1.chains
      { treeNodes := tn2, parents := pa2, chains := ch2, pending := s1.pending }
  | _ => { s1 with pending := emplaceA n tmp s1.pending }

/-- Phase 1: fold `initStep` over all CFG nodes. -/
def initPass (cfg : ControlFlowGraph) : BuildState :=
  cfg.nodes.foldl (initStep cfg) ⟨[], [], [], []⟩

/-- One entry of the chain-extension loop (DominatorTree.cpp:70-78): if the
chain stored for `k` ends in a non-null node whose own chain is known, append
that chain. -/
def extendStep (m : List (Nat × Chain)) (k : Nat) : List (Nat × Chain) :=
  match alookup k m with
  | none => m
  | some l =>
    match l.getLast? with
    | some (some x) =>
        (match alookup x m with
         | some lx => updateA k (l ++ lx) m
         | none => m)
    | _ => m

/-- The chain-extension loop: every stored chain is visited once, in map
order, and lookups see the extensions already made this pass. -/
def extendChainsMap (m : List (Nat × Chain)) : List (Nat × Chain) :=
  (m.map Prod.fst).foldl extendStep m

/-- Translation of the `std::find_if` and `erase(begin, it)` pair of
DominatorTree.cpp:114-127: keep the
suffix of the working list starting at the first entry that equals candidate
`c` or occurs in `c`'s chain `lc`; `none` if there is no such entry. -/
def truncateAt (c : Nat) (lc : Chain) : Chain → Option Chain
  | [] => none
  | e :: rest => if e = some c ∨ e ∈ lc then some (e :: rest) else truncateAt c lc rest

/-- The inner candidate loop of the merge attempt (DominatorTree.cpp:111-128):
truncate the working list once per remaining candidate; `none` stands both for
a missing candidate chain and for `loopAborted`. -/
def mergeLoop (ch : List (Nat × Chain)) : List Nat → Chain → Option Chain
  | [], w => some w
  | c :: rest, w =>
    match alookup c ch with
    | none => none
    | some lc =>
      match truncateAt c lc w with
      | none => none
      | some w' => mergeLoop ch rest w'

/-- A whole merge attempt for one pending node (DominatorTree.cpp:87-130):
all candidate chains must be known; the working list is seeded with the first
candidate prepended to its own chain, truncated once per remaining candidate,
and must stay non-empty.  `none` means the node stays pending this iteration. -/
def mergeChains (ch : List (Nat × Chain)) : List Nat → Option Chain
  | [] => none
  | c1 :: rest =>
    match alookup c1 ch with
    | none => none
    | some ch1 =>
      match mergeLoop ch rest (some c1 :: ch1) with
      | none => none
      | some w => if w = [] then none else some w

/-- The pass over the pending map (DominatorTree.cpp:80-141): each pending
node is either resolved (chain stored via `emplace`, tree edge added only when
the working list's first entry is an actual node, entry erased from pending)
or kept.  Resolutions made earlier in the pass are visible to later merge
attempts through the updated chain map. -/
def processPendingAux (cfg : ControlFlowGraph) :
    List (Nat × List Nat) → List (Nat × Chain) → List (Nat × Nat) →
    List (Nat × List Nat) → (List (Nat × Chain) × List (Nat × Nat) × List (Nat × List Nat))
  | [], ch, pa, acc => (ch, pa, acc)
  | (n, cands) :: rest, ch, pa, acc =>
    match mergeChains ch cands with
    | some w =>
        let pa' := match w.head? with
                   | some (some d) => (n, d) :: pa
                   | _ => pa
        processPendingAux cfg rest (emplaceA n w ch) pa' acc
    | none => processPendingAux cfg rest ch pa (acc ++ [(n, cands)])

/-- One iteration of the `while(!predecessors.empty())` loop: extend all
chains, then attempt to resolve every pending node. -/
def stepState (cfg : ControlFlowGraph) (s : BuildState) : BuildState :=
  let ch0 := extendChainsMap s.chains
  let r := processPendingAux cfg s.pending ch0 s.parents []
  { treeNodes := s.treeNodes, parents := r.2.1, chains := r.1, pending := r.2.2 }

/-- The fuel-indexed outer loop; `none` models the C++ loop still spinning
after `fuel` iterations. -/
def runLoop (cfg : ControlFlowGraph) : Nat → BuildState → Option BuildState
  | 0, s => if s.pending = [] then some s else none
  | fuel + 1, s => if s.pending = [] then some s else runLoop cfg fuel (stepState cfg s)

/-- Translation of `DominatorTree::createDominatorTree`, with an explicit iteration budget for
the phase-2 loop. -/
def createDominatorTree (cfg : ControlFlowGraph) (fuel : Nat) : Option BuildState :=
  runLoop cfg fuel (initPass cfg)

/-- Iterated parent lookup in the produced tree: `parentIter pa k n` is the
`k`-th strict ancestor of `n` (and `some n` for `k = 0`), `none` once the walk
has left the tree through a parentless node. -/
def parentIter (pa : List (Nat × Nat)) : Nat → Nat → Option Nat
  | 0, n => some n
  | k + 1, n =>
    match alookup n pa with
    | some p => parentIter pa k p
    | none => none

/-! ### Association-list toolkit -/

theorem alookup_nil {β : Type} (k : Nat) : alookup k ([] : List (Nat × β)) = none := rfl

theorem alookup_cons {β : Type} (k k' : Nat) (v : β) (m : List (Nat × β)) :
    alookup k ((k', v) :: m) = if k' = k then some v else alookup k m := rfl

theorem alookup_eq_none_iff {β : Type} {k : Nat} {m : List (Nat × β)} :
    alookup k m = none ↔ k ∉ keysOf m := by
  induction m with
  | nil => simp [alookup, keysOf]
  | cons e rest ih =>
    obtain ⟨k', v⟩ := e
    by_cases h : k' = k
    · subst h
      simp [alookup, keysOf]
    · simp [alookup, keysOf, h, ih, Ne.symm h]

theorem alookup_isSome_iff {β : Type} {k : Nat} {m : List (Nat × β)} :
    (alookup k m).isSome ↔ k ∈ keysOf m := by
  rw [Option.isSome_iff_ne_none]
  constructor
  · intro h
    by_contra hmem
    exact h (alookup_eq_none_iff.mpr hmem)
  · intro h hnone
    exact (alookup_eq_none_iff.mp hnone) h

theorem mem_keysOf_of_alookup {β : Type} {k : Nat} {v : β} {m : List (Nat × β)}
    (h : alookup k m = some v) : k ∈ keysOf m := by
  apply alookup_isSome_iff.mp
  simp [h]

theorem keysOf_nil {β : Type} : keysOf ([] : List (Nat × β)) = [] := rfl

theorem keysOf_cons {β : Type} (k : Nat) (v : β) (m : List (Nat × β)) :
    keysOf ((k, v) :: m) = k :: keysOf m := rfl

theorem keysOf_append {β : Type} (m m' : List (Nat × β)) :
    keysOf (m ++ m') = keysOf m ++ keysOf m' := by
  simp [keysOf]

theorem keysOf_updateA {β : Type} (k : Nat) (v : β) (m : List (Nat × β)) :
    keysOf (updateA k v m) = keysOf m := by
  induction m with
  | nil => rfl
  | cons e rest ih =>
    obtain ⟨k', v'⟩ := e
    by_cases h : k' = k
    · simp [updateA, h, keysOf]
    · simp only [updateA, if_neg h, keysOf, List.map_cons] at ih ⊢
      rw [ih]

theorem alookup_updateA_ne {β : Type} {k k' : Nat} (v : β) (m : List (Nat × β))
    (h : k' ≠ k) : alookup k' (updateA k v m) = alookup k' m := by
  induction m with
  | nil => rfl
  | cons e rest ih =>
    obtain ⟨k'', v''⟩ := e
    by_cases h2 : k'' = k
    · subst h2
      simp [updateA, alookup, Ne.symm h]
    · simp [updateA, alookup, h2, ih]

theorem alookup_updateA_self {β : Type} {k : Nat} (v : β) (m : List (Nat × β)) :
    alookup k (updateA k v m) = if (alookup k m).isSome then some v else none := by
  induction m with
  | nil => rfl
  | cons e rest ih =>
    obtain ⟨k'', v''⟩ := e
    by_cases h2 : k'' = k
    · subst h2
      simp [updateA, alookup]
    · simp [updateA, alookup, h2, ih]

theorem alookup_emplaceA_ne {β : Type} {k k' : Nat} (v : β) (m : List (Nat × β))
    (h : k' ≠ k) : alookup k' (emplaceA k v m) = alookup k' m := by
  unfold emplaceA
  by_cases hs : (alookup k m).isSome <;> simp [hs, alookup, Ne.symm h]

theorem alookup_emplaceA_self_of_none {β : Type} {k : Nat} (v : β) (m : List (Nat × β))
    (h : alookup k m = none) : alookup k (emplaceA k v m) = some v := by
  unfold emplaceA
  simp [h, alookup]

theorem alookup_emplaceA_self_of_some {β : Type} {k : Nat} {v₀ : β} (v : β) (m : List (Nat × β))
    (h : alookup k m = some v₀) : alookup k (emplaceA k v m) = some v₀ := by
  unfold emplaceA
  simp [h]

theorem emplaceA_of_some {β : Type} {k : Nat} (v : β) (m : List (Nat × β))
    (h : (alookup k m).isSome) : emplaceA k v m = m := by
  unfold emplaceA
  simp [h]

theorem emplaceA_of_none {β : Type} {k : Nat} (v : β) (m : List (Nat × β))
    (h : alookup k m = none) : emplaceA k v m = (k, v) :: m := by
  unfold emplaceA
  simp [h]

/-! ### `dedupFirst` toolkit -/

theorem dedupFirst_go_mem (l : List Nat) :
    ∀ acc x, x ∈ l.foldl (fun acc x => if x ∈ acc then acc else acc ++ [x]) acc ↔
      x ∈ acc ∨ x ∈ l := by
  induction l with
  | nil => simp
  | cons a rest ih =>
    intro acc x
    by_cases ha : a ∈ acc
    · simp only [List.foldl_cons, if_pos ha, ih]
      constructor
      · rintro (h | h)
        · exact Or.inl h
        · exact Or.inr (List.mem_cons_of_mem _ h)
      · rintro (h | h)
        · exact Or.inl h
        · rcases List.mem_cons.mp h with h | h
          · exact Or.inl (h ▸ ha)
          · exact Or.inr h
    · simp only [List.foldl_cons, if_neg ha, ih, List.mem_append, List.mem_singleton,
        List.mem_cons]
      tauto

theorem mem_dedupFirst {l : List Nat} {x : Nat} : x ∈ dedupFirst l ↔ x ∈ l := by
  unfold dedupFirst
  rw [dedupFirst_go_mem]
  simp

theorem dedupFirst_go_nodup (l : List Nat) :
    ∀ acc, acc.Nodup → (l.foldl (fun acc x => if x ∈ acc then acc else acc ++ [x]) acc).Nodup := by
  induction l with
  | nil => intro acc h; simpa using h
  | cons a rest ih =>
    intro acc h
    by_cases ha : a ∈ acc
    · simpa [ha] using ih acc h
    · simp only [List.foldl_cons, if_neg ha]
      exact ih _ (by simp [List.nodup_append, h, ha])

theorem nodup_dedupFirst (l : List Nat) : (dedupFirst l).Nodup :=
  dedupFirst_go_nodup l [] List.nodup_nil

theorem dedupFirst_go_singleton (l : List Nat) (p : Nat) (hl : ∀ x ∈ l, x = p) :
    l.foldl (fun acc x => if x ∈ acc then acc else acc ++ [x]) [p] = [p] := by
  induction l with
  | nil => rfl
  | cons a rest ih =>
    have ha : a = p := hl a (by simp)
    subst ha
    simp only [List.foldl_cons, if_pos (List.mem_singleton_self a)]
    exact ih fun x hx => hl x (by simp [hx])

theorem dedupFirst_const {l : List Nat} {p : Nat} (hne : l ≠ [])
    (hl : ∀ x ∈ l, x = p) : dedupFirst l = [p] := by
  rcases l with _ | ⟨a, rest⟩
  · exact absurd rfl hne
  · have ha : a = p := hl a (by simp)
    subst ha
    unfold dedupFirst
    simp only [List.foldl_cons, if_neg (List.not_mem_nil a), List.nil_append]
    exact dedupFirst_go_singleton rest a fun x hx => hl x (by simp [hx])

/-! ### Chain-walk structure

Every chain stored in `dominatorChains`, and every merge working list, is a
walk along the recorded parent relation: consecutive entries follow
`parents`-lookup, and every entry that has a successor is an actual node that
is already resolved (has a chain of its own).  In particular the `none`
sentinel can only be the terminal entry. -/

def ChainWalk (ch : List (Nat × Chain)) (pa : List (Nat × Nat)) : Chain → Prop
  | [] => True
  | [_] => True
  | e :: e' :: rest =>
      (∃ x, e = some x ∧ e' = alookup x pa ∧ (alookup x ch).isSome) ∧
        ChainWalk ch pa (e' :: rest)

theorem chainWalk_nil {ch pa} : ChainWalk ch pa [] := trivial

theorem chainWalk_single {ch pa} (e : Option Nat) : ChainWalk ch pa [e] := trivial

theorem chainWalk_tail {ch pa} {e : Option Nat} {l : Chain}
    (h : ChainWalk ch pa (e :: l)) : ChainWalk ch pa l := by
  cases l with
  | nil => trivial
  | cons e' rest => exact h.2

theorem chainWalk_cons {ch pa} {l : Chain} {x : Nat}
    (h : ChainWalk ch pa l) (hh : l.head? = some (alookup x pa))
    (hres : (alookup x ch).isSome) : ChainWalk ch pa (some x :: l) := by
  cases l with
  | nil => simp at hh
  | cons e' rest =>
    refine ⟨⟨x, rfl, ?_, hres⟩, h⟩
    simpa using hh

theorem chainWalk_none_head {ch pa} {rest : Chain}
    (h : ChainWalk ch pa (none :: rest)) : rest = [] := by
  cases rest with
  | nil => rfl
  | cons e' r =>
    obtain ⟨⟨x, hx, -, -⟩, -⟩ := h
    exact absurd hx (by simp)

theorem chainWalk_append {ch pa} {l₁ l₂ : Chain} {x : Nat}
    (h₁ : ChainWalk ch pa l₁) (h₂ : ChainWalk ch pa l₂)
    (hlast : l₁.getLast? = some (some x)) (hh : l₂.head? = some (alookup x pa))
    (hres : (alookup x ch).isSome) : ChainWalk ch pa (l₁ ++ l₂) := by
  induction l₁ with
  | nil => simp at hlast
  | cons e rest ih =>
    cases rest with
    | nil =>
      simp only [List.getLast?_singleton, Option.some_inj] at hlast
      subst hlast
      simpa using chainWalk_cons h₂ hh hres
    | cons e' r =>
      obtain ⟨hstep, hw⟩ := h₁
      refine ⟨hstep, ?_⟩
      exact ih hw (by simpa using hlast)

theorem chainWalk_suffix {ch pa} {l₁ l₂ : Chain}
    (hsuf : l₁ <:+ l₂) (h : ChainWalk ch pa l₂) : ChainWalk ch pa l₁ := by
  obtain ⟨t, rfl⟩ := hsuf
  induction t with
  | nil => exact h
  | cons a t ih => exact ih (chainWalk_tail h)

/-! ### Parent iteration -/

theorem parentIter_zero {pa} (n : Nat) : parentIter pa 0 n = some n := rfl

theorem parentIter_succ {pa} (k n : Nat) :
    parentIter pa (k + 1) n =
      match alookup n pa with
      | some p => parentIter pa k p
      | none => none := rfl

theorem parentIter_add {pa} (a b n : Nat) :
    parentIter pa (a + b) n = (parentIter pa a n).bind (parentIter pa b) := by
  induction a generalizing n with
  | zero => simp [parentIter]
  | succ a ih =>
    have hab : a + 1 + b = (a + b) + 1 := by omega
    rw [hab, parentIter_succ, parentIter_succ]
    cases h : alookup n pa with
    | none => simp
    | some p => simpa using ih p

theorem parentIter_none_mono {pa} {a n : Nat} (h : parentIter pa a n = none)
    (b : Nat) (hab : a ≤ b) : parentIter pa b n = none := by
  have : b = a + (b - a) := by omega
  rw [this, parentIter_add, h, Option.none_bind]

/-- A node all of whose ancestors are eventually exhausted: the parent walk
reaches a parentless node after finitely many steps. -/
def Grounded (pa : List (Nat × Nat)) (n : Nat) : Prop :=
  ∃ k, parentIter pa k n = none

theorem grounded_of_no_parent {pa} {n : Nat} (h : alookup n pa = none) :
    Grounded pa n := ⟨1, by simp [parentIter, h]⟩

theorem grounded_step {pa} {n d : Nat} (h : alookup n pa = some d)
    (hd : Grounded pa d) : Grounded pa n := by
  obtain ⟨k, hk⟩ := hd
  exact ⟨k + 1, by simp [parentIter_succ, h, hk]⟩

theorem grounded_of_iter {pa} {c d k : Nat} (h : parentIter pa k c = some d)
    (hc : Grounded pa c) : Grounded pa d := by
  obtain ⟨k0, hk0⟩ := hc
  by_cases hle : k0 ≤ k
  · exact absurd (parentIter_none_mono hk0 k hle) (by simp [h])
  · refine ⟨k0 - k, ?_⟩
    have : parentIter pa (k + (k0 - k)) c = none := by
      have : k + (k0 - k) = k0 := by omega
      rw [this, hk0]
    rwa [parentIter_add, h, Option.some_bind] at this

/-- Walking a chain: every `some` entry of a chain-walk headed by `some x` is
an iterated parent of `x`. -/
theorem chainWalk_iter {ch pa} : ∀ {l : Chain} {x d : Nat},
    ChainWalk ch pa (some x :: l) → some d ∈ (some x :: l) →
    ∃ k, parentIter pa k x = some d := by
  intro l
  induction l with
  | nil =>
    intro x d _ hmem
    simp only [List.mem_singleton, Option.some_inj] at hmem
    exact ⟨0, by simp [parentIter, hmem]⟩
  | cons e' r ih =>
    intro x d hw hmem
    rcases List.mem_cons.mp hmem with hx | hmem'
    · exact ⟨0, by simp [parentIter, Option.some_inj.mp hx]⟩
    · obtain ⟨⟨x', hx', he', -⟩, hw'⟩ := hw
      have hxx : x' = x := by simpa using hx'.symm
      subst hxx
      cases hpar : alookup x' pa with
      | none =>
        rw [hpar] at he'
        subst he'
        have := chainWalk_none_head hw'
        subst this
        simp at hmem'
      | some y =>
        rw [hpar] at he'
        subst he'
        obtain ⟨k, hk⟩ := ih hw' hmem'
        exact ⟨k + 1, by simp [parentIter_succ, hpar, hk]⟩

/-! ### Truncation and merge-loop structure -/

theorem truncateAt_suffix {c : Nat} {lc : Chain} :
    ∀ {w w' : Chain}, truncateAt c lc w = some w' → w' <:+ w := by
  intro w
  induction w with
  | nil => intro w' h; simp [truncateAt] at h
  | cons e rest ih =>
    intro w' h
    unfold truncateAt at h
    by_cases hc : e = some c ∨ e ∈ lc
    · rw [if_pos hc] at h
      exact Option.some_inj.mp h ▸ List.suffix_refl _
    · rw [if_neg hc] at h
      exact (ih h).trans (List.suffix_cons e rest)

theorem truncateAt_head {c : Nat} {lc : Chain} :
    ∀ {w w' : Chain}, truncateAt c lc w = some w' →
      ∃ e tail, w' = e :: tail ∧ (e = some c ∨ e ∈ lc) := by
  intro w
  induction w with
  | nil => intro w' h; simp [truncateAt] at h
  | cons e rest ih =>
    intro w' h
    unfold truncateAt at h
    by_cases hc : e = some c ∨ e ∈ lc
    · rw [if_pos hc] at h
      exact ⟨e, rest, (Option.some_inj.mp h).symm, hc⟩
    · rw [if_neg hc] at h
      exact ih h

theorem mergeLoop_suffix {ch} :
    ∀ {cs : List Nat} {w w' : Chain}, mergeLoop ch cs w = some w' → w' <:+ w := by
  intro cs
  induction cs with
  | nil => intro w w' h; exact Option.some_inj.mp (by simpa [mergeLoop] using h) ▸ List.suffix_refl _
  | cons c rest ih =>
    intro w w' h
    unfold mergeLoop at h
    cases hlc : alookup c ch with
    | none => rw [hlc] at h; simp at h
    | some lc =>
      rw [hlc] at h
      dsimp only at h
      cases htr : truncateAt c lc w with
      | none => rw [htr] at h; simp at h
      | some wc =>
        rw [htr] at h
        dsimp only at h
        exact (ih h).trans (truncateAt_suffix htr)

theorem mem_of_head? {α : Type} {l : List α} {e : α} (h : l.head? = some e) : e ∈ l := by
  cases l with
  | nil => simp at h
  | cons a t =>
    simp only [List.head?_cons, Option.some_inj] at h
    simp [h]

/-- Chain walks survive growing the chain map and adding parent entries for
nodes that were not resolved: every internal node of a walk is resolved, so
its parent lookup is untouched. -/
theorem chainWalk_mono {ch ch' : List (Nat × Chain)} {pa pa' : List (Nat × Nat)}
    (hm : ∀ x : Nat, (alookup x ch).isSome →
      (alookup x ch').isSome ∧ alookup x pa' = alookup x pa) :
    ∀ {l : Chain}, ChainWalk ch pa l → ChainWalk ch' pa' l := by
  intro l
  induction l with
  | nil => intro _; trivial
  | cons e rest ih =>
    intro h
    cases rest with
    | nil => trivial
    | cons e' r =>
      obtain ⟨⟨x, hx, he', hres⟩, hw⟩ := h
      obtain ⟨hres', hpa⟩ := hm x hres
      exact ⟨⟨x, hx, he' ▸ hpa.symm ▸ rfl, hres'⟩, ih hw⟩

/-- Iterated parent lookups that succeed are unaffected by recording a parent
for a node that had none: the walk cannot have stepped from that node. -/
theorem parentIter_fresh {pa : List (Nat × Nat)} {n e : Nat} (hn : alookup n pa = none) :
    ∀ {k c d : Nat}, parentIter pa k c = some d → parentIter ((n, e) :: pa) k c = some d := by
  intro k
  induction k with
  | zero => intro c d h; exact h
  | succ k ih =>
    intro c d h
    rw [parentIter_succ] at h ⊢
    cases hc : alookup c pa with
    | none => rw [hc] at h; simp at h
    | some p =>
      rw [hc] at h
      have hcn : c ≠ n := fun hcn => by rw [hcn, hn] at hc; exact Option.noConfusion hc
      have : alookup c ((n, e) :: pa) = some p := by
        rw [alookup_cons, if_neg (Ne.symm hcn), hc]
      rw [this]
      exact ih h

/-- Per-candidate walk fact for the merge loop: whenever the loop succeeds,
the final working-list head (if it is an actual node) is an iterated parent of
every candidate consumed by the loop. -/
theorem mergeLoop_dom {ch : List (Nat × Chain)} {pa : List (Nat × Nat)}
    (hhead : ∀ m l, alookup m ch = some l → l.head? = some (alookup m pa))
    (hwalk : ∀ m l, alookup m ch = some l → ChainWalk ch pa l) :
    ∀ {cs : List Nat} {w w' : Chain}, mergeLoop ch cs w = some w' →
      ChainWalk ch pa w →
      ∀ c ∈ cs, ∀ d, w'.head? = some (some d) → ∃ k, parentIter pa k c = some d := by
  intro cs
  induction cs with
  | nil => intro w w' _ _ c hc; simp at hc
  | cons c rest ih =>
    intro w w' h hw c0 hc0 d hd
    unfold mergeLoop at h
    cases hlc : alookup c ch with
    | none => rw [hlc] at h; simp at h
    | some lc =>
      rw [hlc] at h; dsimp only at h
      cases htr : truncateAt c lc w with
      | none => rw [htr] at h; simp at h
      | some wc =>
        rw [htr] at h; dsimp only at h
        have hwc : ChainWalk ch pa wc := chainWalk_suffix (truncateAt_suffix htr) hw
        have hsuf' : w' <:+ wc := mergeLoop_suffix h
        rcases List.mem_cons.mp hc0 with rfl | hc0rest
        · obtain ⟨e, tail, hwceq, hmatch⟩ := truncateAt_head htr
          subst hwceq
          have hdmem : some d ∈ (e :: tail) := hsuf'.subset (mem_of_head? hd)
          cases e with
          | none =>
            have := chainWalk_none_head hwc
            subst this
            simp at hdmem
          | some y =>
            obtain ⟨k1, hk1⟩ := chainWalk_iter hwc hdmem
            rcases hmatch with hyc | hylc
            · have hyy : y = c0 := by simpa using hyc
              exact ⟨k1, hyy ▸ hk1⟩
            · have hlcw : ChainWalk ch pa lc := hwalk c0 lc hlc
              have hlch : lc.head? = some (alookup c0 pa) := hhead c0 lc hlc
              have hbig : ChainWalk ch pa (some c0 :: lc) :=
                chainWalk_cons hlcw hlch (by simp [hlc])
              obtain ⟨k2, hk2⟩ := chainWalk_iter hbig (List.mem_cons_of_mem _ hylc)
              refine ⟨k2 + k1, ?_⟩
              rw [parentIter_add, hk2, Option.some_bind, hk1]
        · exact ih h hwc c0 hc0rest d hd

/-- Structure of a successful merge attempt: the candidate list is non-empty,
the first candidate's chain is known, and the non-empty result is a suffix of
the seeded working list. -/
theorem mergeChains_suffix {ch : List (Nat × Chain)} {cands : List Nat} {w : Chain}
    (h : mergeChains ch cands = some w) :
    ∃ c1 rest ch1, cands = c1 :: rest ∧ alookup c1 ch = some ch1 ∧
      w <:+ (some c1 :: ch1) ∧ w ≠ [] := by
  cases cands with
  | nil => simp [mergeChains] at h
  | cons c1 rest =>
    unfold mergeChains at h
    dsimp only at h
    cases hc1 : alookup c1 ch with
    | none => rw [hc1] at h; simp at h
    | some ch1 =>
      rw [hc1] at h; dsimp only at h
      cases hml : mergeLoop ch rest (some c1 :: ch1) with
      | none => rw [hml] at h; simp at h
      | some w0 =>
        rw [hml] at h; dsimp only at h
        by_cases hw0 : w0 = []
        · rw [if_pos hw0] at h; simp at h
        · rw [if_neg hw0] at h
          have hww : w0 = w := Option.some_inj.mp h
          subst hww
          exact ⟨c1, rest, ch1, rfl, hc1, mergeLoop_suffix hml, hw0⟩

/-- The walk facts of a successful merge attempt: the result is a chain walk,
it is non-empty, and if its head is an actual node `d`, then `d` is an
iterated parent of every candidate. -/
theorem mergeChains_walk {ch : List (Nat × Chain)} {pa : List (Nat × Nat)}
    (hhead : ∀ m l, alookup m ch = some l → l.head? = some (alookup m pa))
    (hwalk : ∀ m l, alookup m ch = some l → ChainWalk ch pa l)
    {cands : List Nat} {w : Chain} (h : mergeChains ch cands = some w) :
    ChainWalk ch pa w ∧ w ≠ [] ∧
      ∀ c ∈ cands, ∀ d, w.head? = some (some d) → ∃ k, parentIter pa k c = some d := by
  cases cands with
  | nil => simp [mergeChains] at h
  | cons c1 rest =>
    unfold mergeChains at h
    dsimp only at h
    cases hc1 : alookup c1 ch with
    | none => rw [hc1] at h; simp at h
    | some ch1 =>
      rw [hc1] at h; dsimp only at h
      cases hml : mergeLoop ch rest (some c1 :: ch1) with
      | none => rw [hml] at h; simp at h
      | some w0 =>
        rw [hml] at h; dsimp only at h
        by_cases hw0 : w0 = []
        · rw [if_pos hw0] at h; simp at h
        · rw [if_neg hw0] at h
          have hww : w = w0 := (Option.some_inj.mp h).symm
          subst hww
          have hch1h : ch1.head? = some (alookup c1 pa) := hhead c1 ch1 hc1
          have hseed : ChainWalk ch pa (some c1 :: ch1) :=
            chainWalk_cons (hwalk c1 ch1 hc1) hch1h (by simp [hc1])
          have hsuf : w <:+ (some c1 :: ch1) := mergeLoop_suffix hml
          refine ⟨chainWalk_suffix hsuf hseed, hw0, ?_⟩
          intro c hc d hd
          rcases List.mem_cons.mp hc with rfl | hcrest
          · exact chainWalk_iter hseed (hsuf.subset (mem_of_head? hd))
          · exact mergeLoop_dom hhead hwalk hml hseed c hcrest d hd

/-- Membership characterization of `getDominatorCandidates` (helper shared by
the whole development). -/
theorem mem_candidates_char (cfg : ControlFlowGraph) (n p : Nat) :
    p ∈ getDominatorCandidates cfg n ↔
      p ≠ n ∧ ∃ e ∈ cfg.edges, e.source = p ∧ e.target = n ∧
        e.isBackEdge = false ∧ e.isWorkGroupLoop = false := by
  unfold getDominatorCandidates
  simp only [List.mem_filter, mem_dedupFirst, List.mem_filterMap, decide_eq_true_eq]
  constructor
  · rintro ⟨⟨e, he, hfe⟩, hp⟩
    by_cases hc : e.target = n ∧ e.isBackEdge = false ∧ e.isWorkGroupLoop = false
    · rw [if_pos hc] at hfe
      refine ⟨hp, e, he, Option.some_injective _ hfe, hc.1, hc.2.1, hc.2.2⟩
    · rw [if_neg hc] at hfe
      exact absurd hfe (by simp)
  · rintro ⟨hp, e, he, hs, ht, hb, hw⟩
    refine ⟨⟨e, he, ?_⟩, hp⟩
    rw [if_pos ⟨ht, hb, hw⟩, hs]

/-! ### The construction invariant -/

/-- Every edge endpoint names a CFG node — true of any actual
`ControlFlowGraph`, whose edges connect existing graph nodes. -/
def EdgesClosed (cfg : ControlFlowGraph) : Prop :=
  ∀ e ∈ cfg.edges, e.source ∈ cfg.nodes ∧ e.target ∈ cfg.nodes

instance (cfg : ControlFlowGraph) : Decidable (EdgesClosed cfg) :=
  inferInstanceAs (Decidable (∀ e ∈ cfg.edges, e.source ∈ cfg.nodes ∧ e.target ∈ cfg.nodes))

theorem head?_append_of_some {α : Type} {l l' : List α} {e : α}
    (h : l.head? = some e) : (l ++ l').head? = some e := by
  cases l with
  | nil => simp at h
  | cons a t => simpa using h

/-- The invariant tying together the `dominatorChains` map, the recorded tree
edges and the `predecessors` (pending) map of the construction, for any point
between whole passes:

* all three maps have pairwise-distinct keys, pending nodes are unresolved,
  nodes with a recorded parent are resolved, and all keys name CFG nodes;
* every pending entry stores exactly the node's (multi-)candidate set;
* every stored chain is non-empty, starts with the node's recorded parent
  (or the `none` sentinel when it has none) and is a `ChainWalk`;
* a recorded parent is an iterated parent of every one of the node's
  candidates, a single-candidate resolved node's parent is that candidate, and
  candidate-free nodes never acquire a parent. -/
structure GoodCore (cfg : ControlFlowGraph) (ch : List (Nat × Chain))
    (pa : List (Nat × Nat)) (pend : List (Nat × List Nat)) : Prop where
  chains_nodup : (keysOf ch).Nodup
  pending_nodup : (keysOf pend).Nodup
  parents_nodup : (keysOf pa).Nodup
  pending_fresh : ∀ n ∈ keysOf pend, alookup n ch = none
  parents_resolved : ∀ n ∈ keysOf pa, (alookup n ch).isSome
  chains_nodes : ∀ n ∈ keysOf ch, n ∈ cfg.nodes
  pending_nodes : ∀ n ∈ keysOf pend, n ∈ cfg.nodes
  pending_cands : ∀ p ∈ pend, p.2 = getDominatorCandidates cfg p.1 ∧ 2 ≤ p.2.length
  parents_vals : ∀ n d, alookup n pa = some d → d ∈ cfg.nodes
  chain_head : ∀ n l, alookup n ch = some l → l.head? = some (alookup n pa)
  chain_walk : ∀ n l, alookup n ch = some l → ChainWalk ch pa l
  chain_nodes : ∀ n l, alookup n ch = some l → ∀ x : Nat, some x ∈ l → x ∈ cfg.nodes
  parent_cands : ∀ n d, alookup n pa = some d → getDominatorCandidates cfg n ≠ []
  single_cand : ∀ n c, getDominatorCandidates cfg n = [c] →
    (alookup n ch).isSome → alookup n pa = some c
  no_cand : ∀ n, getDominatorCandidates cfg n = [] → alookup n pa = none
  parent_dom : ∀ n d, alookup n pa = some d →
    ∀ c ∈ getDominatorCandidates cfg n, ∃ k, parentIter pa k c = some d

theorem candidates_sub_nodes {cfg : ControlFlowGraph} (hcl : EdgesClosed cfg)
    {n c : Nat} (hc : c ∈ getDominatorCandidates cfg n) : c ∈ cfg.nodes := by
  obtain ⟨-, e, he, hs, -, -, -⟩ := (mem_candidates_char cfg n c).mp hc
  exact hs ▸ (hcl e he).1

/-! ### Chain extension preserves the invariant -/

theorem keysOf_extendStep (m : List (Nat × Chain)) (k : Nat) :
    keysOf (extendStep m k) = keysOf m := by
  unfold extendStep
  split
  · rfl
  · split
    · split
      · exact keysOf_updateA _ _ _
      · rfl
    · rfl

/-- Either `extendStep` leaves the entry for `n` alone, or (when `n = k` and
the guard fires) it appends the last entry's chain. -/
theorem extendStep_lookup (m : List (Nat × Chain)) (k n : Nat) :
    alookup n (extendStep m k) = alookup n m ∨
    ∃ l x lx, n = k ∧ alookup k m = some l ∧ l.getLast? = some (some x) ∧
      alookup x m = some lx ∧ alookup n (extendStep m k) = some (l ++ lx) := by
  unfold extendStep
  split
  · exact Or.inl rfl
  next l hk =>
    split
    next x hlast =>
      split
      next lx hx =>
        by_cases hnk : n = k
        · subst hnk
          refine Or.inr ⟨l, x, lx, rfl, hk, hlast, hx, ?_⟩
          rw [alookup_updateA_self]
          simp [hk]
        · exact Or.inl (alookup_updateA_ne _ m hnk)
      next hx => exact Or.inl rfl
    next hlast => exact Or.inl rfl

theorem extendStep_prefix {m : List (Nat × Chain)} {n : Nat} {l : Chain}
    (h : alookup n m = some l) (k : Nat) :
    ∃ l2, alookup n (extendStep m k) = some (l ++ l2) := by
  rcases extendStep_lookup m k n with heq | ⟨l', x, lx, rfl, hk, -, -, heq⟩
  · exact ⟨[], by simpa using heq ▸ h⟩
  · rw [hk] at h
    obtain rfl := Option.some_inj.mp h
    exact ⟨lx, heq⟩

/-- Lookup characterization of `extendStep`, uniform in the key: an entry
is either unchanged or extended by the chain of its last element. -/
theorem extendStep_lookup' (m : List (Nat × Chain)) (k n : Nat) :
    alookup n (extendStep m k) = alookup n m ∨
    ∃ l x lx, alookup n m = some l ∧ l.getLast? = some (some x) ∧
      alookup x m = some lx ∧ alookup n (extendStep m k) = some (l ++ lx) := by
  rcases extendStep_lookup m k n with heq | ⟨l, x, lx, hnk, hk, hlast, hx, heq⟩
  · exact Or.inl heq
  · exact Or.inr ⟨l, x, lx, hnk ▸ hk, hlast, hx, heq⟩

theorem extendStep_isSome (m : List (Nat × Chain)) (k n : Nat) :
    (alookup n (extendStep m k)).isSome = (alookup n m).isSome := by
  have := keysOf_extendStep m k
  by_cases hn : n ∈ keysOf m
  · have h1 : (alookup n m).isSome := alookup_isSome_iff.mpr hn
    have h2 : (alookup n (extendStep m k)).isSome := alookup_isSome_iff.mpr (this ▸ hn)
    rw [h1, h2]
  · have h1 : alookup n m = none := alookup_eq_none_iff.mpr hn
    have h2 : alookup n (extendStep m k) = none := alookup_eq_none_iff.mpr (this ▸ hn)
    rw [h1, h2]

theorem extendStep_good {cfg : ControlFlowGraph} {ch : List (Nat × Chain)}
    {pa : List (Nat × Nat)} {pend : List (Nat × List Nat)}
    (g : GoodCore cfg ch pa pend) (k : Nat) :
    GoodCore cfg (extendStep ch k) pa pend := by
  have hkeys := keysOf_extendStep ch k
  have hmono : ∀ y : Nat, (alookup y ch).isSome →
      (alookup y (extendStep ch k)).isSome ∧ alookup y pa = alookup y pa :=
    fun y hy => ⟨(extendStep_isSome ch k y).symm ▸ hy, rfl⟩
  refine
    { chains_nodup := hkeys ▸ g.chains_nodup
      pending_nodup := g.pending_nodup
      parents_nodup := g.parents_nodup
      pending_fresh := fun n hn => alookup_eq_none_iff.mpr
        (hkeys ▸ alookup_eq_none_iff.mp (g.pending_fresh n hn))
      parents_resolved := fun n hn =>
        (extendStep_isSome ch k n).symm ▸ g.parents_resolved n hn
      chains_nodes := fun n hn => g.chains_nodes n (hkeys ▸ hn)
      pending_nodes := g.pending_nodes
      pending_cands := g.pending_cands
      parents_vals := g.parents_vals
      chain_head := ?_
      chain_walk := ?_
      chain_nodes := ?_
      parent_cands := g.parent_cands
      single_cand := fun n c hc hres =>
        g.single_cand n c hc ((extendStep_isSome ch k n) ▸ hres)
      no_cand := g.no_cand
      parent_dom := g.parent_dom }
  · -- chain_head
    intro n L hL
    rcases extendStep_lookup' ch k n with heq | ⟨l, x, lx, hn, hlast, hx, heq⟩
    · exact g.chain_head n L (heq ▸ hL)
    · rw [hL] at heq
      obtain rfl := Option.some_inj.mp heq.symm
      exact head?_append_of_some (g.chain_head n l hn)
  · -- chain_walk
    intro n L hL
    have hwalk : ChainWalk ch pa L := by
      rcases extendStep_lookup' ch k n with heq | ⟨l, x, lx, hn, hlast, hx, heq⟩
      · exact g.chain_walk n L (heq ▸ hL)
      · rw [hL] at heq
        obtain rfl := Option.some_inj.mp heq.symm
        exact chainWalk_append (g.chain_walk n l hn) (g.chain_walk x lx hx)
          hlast (g.chain_head x lx hx) (by simp [hx])
    exact chainWalk_mono hmono hwalk
  · -- chain_nodes
    intro n L hL y hy
    rcases extendStep_lookup' ch k n with heq | ⟨l, x, lx, hn, hlast, hx, heq⟩
    · exact g.chain_nodes n L (heq ▸ hL) y hy
    · rw [hL] at heq
      obtain rfl := Option.some_inj.mp heq.symm
      rcases List.mem_append.mp hy with h1 | h2
      · exact g.chain_nodes n l hn y h1
      · exact g.chain_nodes x lx hx y h2

/-- The whole chain-extension pass preserves the invariant, for an arbitrary
key schedule. -/
theorem extendFold_good {cfg : ControlFlowGraph} {pa : List (Nat × Nat)}
    {pend : List (Nat × List Nat)} :
    ∀ (ks : List Nat) {ch : List (Nat × Chain)}, GoodCore cfg ch pa pend →
      GoodCore cfg (ks.foldl extendStep ch) pa pend := by
  intro ks
  induction ks with
  | nil => intro ch g; exact g
  | cons k rest ih => intro ch g; exact ih (extendStep_good g k)

theorem extendChainsMap_good {cfg : ControlFlowGraph} {ch : List (Nat × Chain)}
    {pa : List (Nat × Nat)} {pend : List (Nat × List Nat)}
    (g : GoodCore cfg ch pa pend) : GoodCore cfg (extendChainsMap ch) pa pend :=
  extendFold_good _ g

theorem extendFold_prefix :
    ∀ (ks : List Nat) {ch : List (Nat × Chain)} {n : Nat} {l : Chain},
      alookup n ch = some l →
      ∃ l2, alookup n (ks.foldl extendStep ch) = some (l ++ l2) := by
  intro ks
  induction ks with
  | nil => intro ch n l h; exact ⟨[], by simpa using h⟩
  | cons k rest ih =>
    intro ch n l h
    obtain ⟨l2, h2⟩ := extendStep_prefix h k
    obtain ⟨l3, h3⟩ := ih h2
    exact ⟨l2 ++ l3, by simpa [List.append_assoc] using h3⟩

theorem extendChainsMap_prefix {ch : List (Nat × Chain)} {n : Nat} {l : Chain}
    (h : alookup n ch = some l) :
    ∃ l2, alookup n (extendChainsMap ch) = some (l ++ l2) :=
  extendFold_prefix _ h

theorem extendChainsMap_isSome (ch : List (Nat × Chain)) (n : Nat) :
    (alookup n (extendChainsMap ch)).isSome = (alookup n ch).isSome := by
  unfold extendChainsMap
  generalize (ch.map Prod.fst) = ks
  induction ks generalizing ch with
  | nil => rfl
  | cons k rest ih =>
    simpa [extendStep_isSome] using (ih (extendStep ch k)).trans (extendStep_isSome ch k n)

theorem keysOf_extendChainsMap (ch : List (Nat × Chain)) :
    keysOf ((ch.map Prod.fst).foldl extendStep ch) = keysOf ch := by
  generalize (ch.map Prod.fst) = ks
  induction ks generalizing ch with
  | nil => rfl
  | cons k rest ih => simpa [keysOf_extendStep] using (ih (extendStep ch k)).trans (keysOf_extendStep ch k)

/-! ### Resolving a pending node preserves the invariant -/

theorem pend_middle_facts {cfg : ControlFlowGraph} {ch : List (Nat × Chain)}
    {pa : List (Nat × Nat)} {acc rest : List (Nat × List Nat)} {n : Nat}
    {cands : List Nat}
    (g : GoodCore cfg ch pa (acc ++ (n, cands) :: rest)) :
    alookup n ch = none ∧ alookup n pa = none ∧
      cands = getDominatorCandidates cfg n ∧ 2 ≤ cands.length ∧
      n ∉ keysOf acc ++ keysOf rest ∧ (keysOf acc ++ keysOf rest).Nodup := by
  have hnkeys : n ∈ keysOf (acc ++ (n, cands) :: rest) := by simp [keysOf]
  have hfresh : alookup n ch = none := g.pending_fresh n hnkeys
  have hnpa : alookup n pa = none := by
    cases hpa : alookup n pa with
    | none => rfl
    | some d =>
      have := g.parents_resolved n (mem_keysOf_of_alookup hpa)
      rw [hfresh] at this
      simp at this
  have hmem : (n, cands) ∈ acc ++ (n, cands) :: rest := by simp
  obtain ⟨hcands, hlen⟩ := g.pending_cands _ hmem
  have hkeq : keysOf (acc ++ (n, cands) :: rest) = keysOf acc ++ n :: keysOf rest := by
    simp [keysOf]
  have hnodup2 : (keysOf acc ++ n :: keysOf rest).Nodup := hkeq ▸ g.pending_nodup
  have hmid := List.nodup_cons.mp (List.nodup_middle.mp hnodup2)
  exact ⟨hfresh, hnpa, hcands, hlen, hmid.1, hmid.2⟩

theorem mem_keys_append_of {β : Type} {m : Nat} {acc rest : List (Nat × β)}
    (a : Nat × β) (h : m ∈ keysOf (acc ++ rest)) :
    m ∈ keysOf (acc ++ a :: rest) := by
  simp only [keysOf, List.map_append, List.mem_append, List.map_cons, List.mem_cons] at h ⊢
  tauto

theorem mem_append_of_middle {β : Type} {p : β} {acc rest : List β} (a : β)
    (h : p ∈ acc ++ rest) : p ∈ acc ++ a :: rest := by
  simp only [List.mem_append, List.mem_cons] at h ⊢
  tauto

/-- Resolving a pending node whose merged working list starts with an actual
node `d`: the chain is stored, the tree edge `d → n` is recorded, and the node
leaves the pending set — all invariant fields survive. -/
theorem resolve_good_node {cfg : ControlFlowGraph} {ch : List (Nat × Chain)}
    {pa : List (Nat × Nat)} {acc rest : List (Nat × List Nat)} {n d : Nat}
    {cands : List Nat} {w : Chain}
    (hcl : EdgesClosed cfg)
    (g : GoodCore cfg ch pa (acc ++ (n, cands) :: rest))
    (hm : mergeChains ch cands = some w) (hw : w.head? = some (some d)) :
    GoodCore cfg ((n, w) :: ch) ((n, d) :: pa) (acc ++ rest) := by
  obtain ⟨hfresh, hnpa, hcands, hlen, hnnotin, hnodup2⟩ := pend_middle_facts g
  obtain ⟨hwwalk, hwne, hwdom⟩ := mergeChains_walk g.chain_head g.chain_walk hm
  obtain ⟨c1, crest, ch1, hceq, hc1, hwsuf, -⟩ := mergeChains_suffix hm
  have hnnodes : n ∈ cfg.nodes := g.pending_nodes n (by simp [keysOf])
  have hc1cand : c1 ∈ getDominatorCandidates cfg n := by
    rw [← hcands, hceq]; simp
  have hwnodes : ∀ x : Nat, some x ∈ w → x ∈ cfg.nodes := by
    intro x hx
    rcases List.mem_cons.mp (hwsuf.subset hx) with h1 | h2
    · have hxc : x = c1 := by simpa using h1
      exact hxc ▸ candidates_sub_nodes hcl hc1cand
    · exact g.chain_nodes c1 ch1 hc1 x h2
  have hlookch : ∀ m : Nat, alookup m ((n, w) :: ch) = if n = m then some w else alookup m ch :=
    fun m => rfl
  have hlookpa : ∀ m : Nat, alookup m ((n, d) :: pa) = if n = m then some d else alookup m pa :=
    fun m => rfl
  have hmono : ∀ y : Nat, (alookup y ch).isSome →
      (alookup y ((n, w) :: ch)).isSome ∧ alookup y ((n, d) :: pa) = alookup y pa := by
    intro y hy
    have hyn : n ≠ y := by
      intro hh
      rw [← hh, hfresh] at hy
      simp at hy
    constructor
    · rw [hlookch y, if_neg hyn]; exact hy
    · rw [hlookpa y, if_neg hyn]
  have hcne : getDominatorCandidates cfg n ≠ [] := by
    intro hnil
    rw [← hcands] at hnil
    rw [hnil] at hlen
    simp at hlen
  have hnot1 : ∀ c : Nat, getDominatorCandidates cfg n ≠ [c] := by
    intro c h1
    rw [← hcands] at h1
    rw [h1] at hlen
    simp at hlen
  refine
    { chains_nodup := ?_
      pending_nodup := ?_
      parents_nodup := ?_
      pending_fresh := ?_
      parents_resolved := ?_
      chains_nodes := ?_
      pending_nodes := ?_
      pending_cands := ?_
      parents_vals := ?_
      chain_head := ?_
      chain_walk := ?_
      chain_nodes := ?_
      parent_cands := ?_
      single_cand := ?_
      no_cand := ?_
      parent_dom := ?_ }
  · rw [keysOf_cons]
    exact List.nodup_cons.mpr ⟨alookup_eq_none_iff.mp hfresh, g.chains_nodup⟩
  · rw [keysOf_append]
    exact hnodup2
  · rw [keysOf_cons]
    exact List.nodup_cons.mpr ⟨alookup_eq_none_iff.mp hnpa, g.parents_nodup⟩
  · intro m hmk
    have hmn : n ≠ m := by
      intro hh
      rw [keysOf_append] at hmk
      exact hnnotin (hh ▸ hmk)
    rw [hlookch m, if_neg hmn]
    exact g.pending_fresh m (mem_keys_append_of _ hmk)
  · intro m hmk
    rw [keysOf_cons] at hmk
    rcases List.mem_cons.mp hmk with rfl | hmk'
    · rw [hlookch m]
      simp
    · have hmn : n ≠ m := by
        intro hh
        rw [← hh] at hmk'
        exact (alookup_eq_none_iff.mp hnpa) hmk'
      rw [hlookch m, if_neg hmn]
      exact g.parents_resolved m hmk'
  · intro m hmk
    rw [keysOf_cons] at hmk
    rcases List.mem_cons.mp hmk with rfl | hmk'
    · exact hnnodes
    · exact g.chains_nodes m hmk'
  · intro m hmk
    exact g.pending_nodes m (mem_keys_append_of _ hmk)
  · intro p hp
    exact g.pending_cands p (mem_append_of_middle _ hp)
  · intro m d' hmd
    rw [hlookpa m] at hmd
    by_cases hmn : n = m
    · rw [if_pos hmn] at hmd
      obtain rfl := Option.some_inj.mp hmd
      exact hwnodes d (mem_of_head? hw)
    · rw [if_neg hmn] at hmd
      exact g.parents_vals m d' hmd
  · intro m L hL
    rw [hlookch m] at hL
    by_cases hmn : n = m
    · rw [if_pos hmn] at hL
      obtain rfl := Option.some_inj.mp hL
      rw [hlookpa m, if_pos hmn]
      exact hw
    · rw [if_neg hmn] at hL
      rw [hlookpa m, if_neg hmn]
      exact g.chain_head m L hL
  · intro m L hL
    rw [hlookch m] at hL
    by_cases hmn : n = m
    · rw [if_pos hmn] at hL
      obtain rfl := Option.some_inj.mp hL
      exact chainWalk_mono hmono hwwalk
    · rw [if_neg hmn] at hL
      exact chainWalk_mono hmono (g.chain_walk m L hL)
  · intro m L hL x hx
    rw [hlookch m] at hL
    by_cases hmn : n = m
    · rw [if_pos hmn] at hL
      obtain rfl := Option.some_inj.mp hL
      exact hwnodes x hx
    · rw [if_neg hmn] at hL
      exact g.chain_nodes m L hL x hx
  · intro m d' hmd
    rw [hlookpa m] at hmd
    by_cases hmn : n = m
    · rw [← hmn]
      exact hcne
    · rw [if_neg hmn] at hmd
      exact g.parent_cands m d' hmd
  · intro m c hc hres
    by_cases hmn : n = m
    · exact absurd (hmn ▸ hc) (hnot1 c)
    · rw [hlookch m, if_neg hmn] at hres
      rw [hlookpa m, if_neg hmn]
      exact g.single_cand m c hc hres
  · intro m hc
    by_cases hmn : n = m
    · exact absurd (hmn ▸ hc) hcne
    · rw [hlookpa m, if_neg hmn]
      exact g.no_cand m hc
  · intro m d' hmd c hcmem
    rw [hlookpa m] at hmd
    by_cases hmn : n = m
    · rw [if_pos hmn] at hmd
      obtain rfl := Option.some_inj.mp hmd
      have hcc : c ∈ cands := by rw [hcands, hmn]; exact hcmem
      obtain ⟨k, hk⟩ := hwdom c hcc d hw
      exact ⟨k, parentIter_fresh hnpa hk⟩
    · rw [if_neg hmn] at hmd
      obtain ⟨k, hk⟩ := g.parent_dom m d' hmd c hcmem
      exact ⟨k, parentIter_fresh hnpa hk⟩

/-- Resolving a pending node whose merged working list starts with the `none`
sentinel: the chain is stored and the node leaves the pending set, but — as in
the source's `if(auto first = dominatorCandidates.front())` — no tree edge is
recorded, so the node stays parentless. -/
theorem resolve_good_root {cfg : ControlFlowGraph} {ch : List (Nat × Chain)}
    {pa : List (Nat × Nat)} {acc rest : List (Nat × List Nat)} {n : Nat}
    {cands : List Nat} {w : Chain}
    (hcl : EdgesClosed cfg)
    (g : GoodCore cfg ch pa (acc ++ (n, cands) :: rest))
    (hm : mergeChains ch cands = some w) (hw : w.head? = some none) :
    GoodCore cfg ((n, w) :: ch) pa (acc ++ rest) := by
  obtain ⟨hfresh, hnpa, hcands, hlen, hnnotin, hnodup2⟩ := pend_middle_facts g
  obtain ⟨hwwalk, hwne, -⟩ := mergeChains_walk g.chain_head g.chain_walk hm
  obtain ⟨c1, crest, ch1, hceq, hc1, hwsuf, -⟩ := mergeChains_suffix hm
  have hnnodes : n ∈ cfg.nodes := g.pending_nodes n (by simp [keysOf])
  have hc1cand : c1 ∈ getDominatorCandidates cfg n := by
    rw [← hcands, hceq]; simp
  have hwnodes : ∀ x : Nat, some x ∈ w → x ∈ cfg.nodes := by
    intro x hx
    rcases List.mem_cons.mp (hwsuf.subset hx) with h1 | h2
    · have hxc : x = c1 := by simpa using h1
      exact hxc ▸ candidates_sub_nodes hcl hc1cand
    · exact g.chain_nodes c1 ch1 hc1 x h2
  have hlookch : ∀ m : Nat, alookup m ((n, w) :: ch) = if n = m then some w else alookup m ch :=
    fun m => rfl
  have hmono : ∀ y : Nat, (alookup y ch).isSome →
      (alookup y ((n, w) :: ch)).isSome ∧ alookup y pa = alookup y pa := by
    intro y hy
    have hyn : n ≠ y := by
      intro hh
      rw [← hh, hfresh] at hy
      simp at hy
    exact ⟨by rw [hlookch y, if_neg hyn]; exact hy, rfl⟩
  refine
    { chains_nodup := ?_
      pending_nodup := ?_
      parents_nodup := g.parents_nodup
      pending_fresh := ?_
      parents_resolved := ?_
      chains_nodes := ?_
      pending_nodes := ?_
      pending_cands := ?_
      parents_vals := g.parents_vals
      chain_head := ?_
      chain_walk := ?_
      chain_nodes := ?_
      parent_cands := g.parent_cands
      single_cand := ?_
      no_cand := g.no_cand
      parent_dom := g.parent_dom }
  · rw [keysOf_cons]
    exact List.nodup_cons.mpr ⟨alookup_eq_none_iff.mp hfresh, g.chains_nodup⟩
  · rw [keysOf_append]
    exact hnodup2
  · intro m hmk
    have hmn : n ≠ m := by
      intro hh
      rw [keysOf_append] at hmk
      exact hnnotin (hh ▸ hmk)
    rw [hlookch m, if_neg hmn]
    exact g.pending_fresh m (mem_keys_append_of _ hmk)
  · intro m hmk
    have hmn : n ≠ m := by
      intro hh
      rw [← hh] at hmk
      exact (alookup_eq_none_iff.mp hnpa) hmk
    rw [hlookch m, if_neg hmn]
    exact g.parents_resolved m hmk
  · intro m hmk
    rw [keysOf_cons] at hmk
    rcases List.mem_cons.mp hmk with rfl | hmk'
    · exact hnnodes
    · exact g.chains_nodes m hmk'
  · intro m hmk
    exact g.pending_nodes m (mem_keys_append_of _ hmk)
  · intro p hp
    exact g.pending_cands p (mem_append_of_middle _ hp)
  · intro m L hL
    rw [hlookch m] at hL
    by_cases hmn : n = m
    · rw [if_pos hmn] at hL
      obtain rfl := Option.some_inj.mp hL
      subst hmn
      rw [hnpa]
      exact hw
    · rw [if_neg hmn] at hL
      exact g.chain_head m L hL
  · intro m L hL
    rw [hlookch m] at hL
    by_cases hmn : n = m
    · rw [if_pos hmn] at hL
      obtain rfl := Option.some_inj.mp hL
      exact chainWalk_mono hmono hwwalk
    · rw [if_neg hmn] at hL
      exact chainWalk_mono hmono (g.chain_walk m L hL)
  · intro m L hL x hx
    rw [hlookch m] at hL
    by_cases hmn : n = m
    · rw [if_pos hmn] at hL
      obtain rfl := Option.some_inj.mp hL
      exact hwnodes x hx
    · rw [if_neg hmn] at hL
      exact g.chain_nodes m L hL x hx
  · intro m c hc hres
    by_cases hmn : n = m
    · have : getDominatorCandidates cfg n ≠ [c] := by
        intro h1
        rw [← hcands] at h1
        rw [h1] at hlen
        simp at hlen
      exact absurd (hmn ▸ hc) this
    · rw [hlookch m, if_neg hmn] at hres
      exact g.single_cand m c hc hres

/-! ### The whole pending pass preserves the invariant -/

/-- Invariant preservation and persistence facts for the pass over the pending
map: the invariant survives, already-stored chains and parents are never
modified, resolved-but-parentless nodes stay parentless, the pending set only
shrinks, and every node that was resolved-or-pending stays resolved-or-pending. -/
theorem ppa_good {cfg : ControlFlowGraph} (hcl : EdgesClosed cfg) :
    ∀ (rest : List (Nat × List Nat)) (ch : List (Nat × Chain)) (pa : List (Nat × Nat))
      (acc : List (Nat × List Nat)),
      GoodCore cfg ch pa (acc ++ rest) →
      GoodCore cfg (processPendingAux cfg rest ch pa acc).1
          (processPendingAux cfg rest ch pa acc).2.1
          (processPendingAux cfg rest ch pa acc).2.2 ∧
        (∀ n l, alookup n ch = some l →
          alookup n (processPendingAux cfg rest ch pa acc).1 = some l) ∧
        (∀ n d, alookup n pa = some d →
          alookup n (processPendingAux cfg rest ch pa acc).2.1 = some d) ∧
        (∀ n, (alookup n ch).isSome → alookup n pa = none →
          alookup n (processPendingAux cfg rest ch pa acc).2.1 = none) ∧
        (keysOf (processPendingAux cfg rest ch pa acc).2.2 ⊆ keysOf (acc ++ rest)) ∧
        (∀ m ∈ keysOf (acc ++ rest),
          (alookup m (processPendingAux cfg rest ch pa acc).1).isSome ∨
            m ∈ keysOf (processPendingAux cfg rest ch pa acc).2.2) := by
  intro rest
  induction rest with
  | nil =>
    intro ch pa acc g
    rw [List.append_nil] at g
    simp only [processPendingAux]
    refine ⟨g, fun n l h => h, fun n d h => h, fun n _ h => h,
      by rw [List.append_nil]; exact fun m hm => hm, ?_⟩
    intro m hm
    rw [List.append_nil] at hm
    exact Or.inr hm
  | cons p rest ih =>
    obtain ⟨n, cands⟩ := p
    intro ch pa acc g
    simp only [processPendingAux]
    cases hm : mergeChains ch cands with
    | none =>
      dsimp only
      have hassoc : (acc ++ [(n, cands)]) ++ rest = acc ++ (n, cands) :: rest := by simp
      have g' : GoodCore cfg ch pa ((acc ++ [(n, cands)]) ++ rest) := hassoc ▸ g
      obtain ⟨ihg, ih2, ih3, ih4, ih5, ih6⟩ := ih ch pa (acc ++ [(n, cands)]) g'
      refine ⟨ihg, ih2, ih3, ih4, ?_, ?_⟩
      · intro m hmk
        have hres := ih5 hmk
        rw [hassoc] at hres
        exact hres
      · intro m hmk
        rw [← hassoc] at hmk
        exact ih6 m hmk
    | some w =>
      dsimp only
      obtain ⟨hfresh, hnpa, hcands, hlen, hnnotin, hnodup2⟩ :=
        pend_middle_facts g
      obtain ⟨-, -, -, -, -, -, hwne⟩ := mergeChains_suffix hm
      rw [emplaceA_of_none w ch hfresh]
      have hchne : ∀ m l, alookup m ch = some l → n ≠ m := by
        intro m l hml hnm
        rw [← hnm, hfresh] at hml
        exact Option.noConfusion hml
      have hsplitk : ∀ m : Nat, m ∈ keysOf (acc ++ (n, cands) :: rest) →
          m = n ∨ m ∈ keysOf (acc ++ rest) := by
        intro m hmk
        simp only [keysOf, List.map_append, List.map_cons, List.mem_append,
          List.mem_cons] at hmk ⊢
        tauto
      cases w with
      | nil => exact absurd rfl hwne
      | cons e wt =>
        cases e with
        | some d =>
          simp only [List.head?_cons]
          have g2 : GoodCore cfg ((n, some d :: wt) :: ch) ((n, d) :: pa) (acc ++ rest) :=
            resolve_good_node hcl g hm rfl
          obtain ⟨ihg, ih2, ih3, ih4, ih5, ih6⟩ := ih ((n, some d :: wt) :: ch) ((n, d) :: pa) acc g2
          refine ⟨ihg, ?_, ?_, ?_, ?_, ?_⟩
          · intro m l hml
            refine ih2 m l ?_
            rw [alookup_cons, if_neg (hchne m l hml)]
            exact hml
          · intro m d' hmd
            refine ih3 m d' ?_
            have hnm : n ≠ m := by
              intro hnm
              rw [← hnm, hnpa] at hmd
              exact Option.noConfusion hmd
            rw [alookup_cons, if_neg hnm]
            exact hmd
          · intro m hms hmn
            have hnm : n ≠ m := by
              intro hnm
              rw [← hnm, hfresh] at hms
              simp at hms
            refine ih4 m ?_ ?_
            · rw [alookup_cons, if_neg hnm]
              exact hms
            · rw [alookup_cons, if_neg hnm]
              exact hmn
          · intro m hmk
            exact mem_keys_append_of _ (ih5 hmk)
          · intro m hmk
            rcases hsplitk m hmk with rfl | hmk'
            · have hself : alookup m ((m, some d :: wt) :: ch) = some (some d :: wt) := by
                rw [alookup_cons, if_pos rfl]
              have := ih2 m (some d :: wt) hself
              exact Or.inl (by rw [this]; rfl)
            · exact ih6 m hmk'
        | none =>
          simp only [List.head?_cons]
          have g2 : GoodCore cfg ((n, (none : Option Nat) :: wt) :: ch) pa (acc ++ rest) :=
            resolve_good_root hcl g hm rfl
          obtain ⟨ihg, ih2, ih3, ih4, ih5, ih6⟩ := ih ((n, (none : Option Nat) :: wt) :: ch) pa acc g2
          refine ⟨ihg, ?_, ih3, ?_, ?_, ?_⟩
          · intro m l hml
            refine ih2 m l ?_
            rw [alookup_cons, if_neg (hchne m l hml)]
            exact hml
          · intro m hms hmn
            have hnm : n ≠ m := by
              intro hnm
              rw [← hnm, hfresh] at hms
              simp at hms
            refine ih4 m ?_ hmn
            rw [alookup_cons, if_neg hnm]
            exact hms
          · intro m hmk
            exact mem_keys_append_of _ (ih5 hmk)
          · intro m hmk
            rcases hsplitk m hmk with rfl | hmk'
            · have hself : alookup m ((m, (none : Option Nat) :: wt) :: ch) =
                  some ((none : Option Nat) :: wt) := by
                rw [alookup_cons, if_pos rfl]
              have := ih2 m ((none : Option Nat) :: wt) hself
              exact Or.inl (by rw [this]; rfl)
            · exact ih6 m hmk'

/-! ### Whole-state invariant and the outer loop -/

/-- The invariant of a whole `BuildState` between loop iterations: the core
invariant, coverage of every CFG node (resolved or pending), and the tree-node
bookkeeping (`getOrCreateNode` created exactly the CFG nodes). -/
structure GoodState (cfg : ControlFlowGraph) (s : BuildState) : Prop where
  core : GoodCore cfg s.chains s.parents s.pending
  cover : ∀ n ∈ cfg.nodes, (alookup n s.chains).isSome ∨ n ∈ keysOf s.pending
  tree_nodup : s.treeNodes.Nodup
  tree_sub : ∀ x ∈ s.treeNodes, x ∈ cfg.nodes
  tree_sup : ∀ x ∈ cfg.nodes, x ∈ s.treeNodes

theorem stepState_chains (cfg : ControlFlowGraph) (s : BuildState) :
    (stepState cfg s).chains =
      (processPendingAux cfg s.pending (extendChainsMap s.chains) s.parents []).1 := rfl

theorem stepState_parents (cfg : ControlFlowGraph) (s : BuildState) :
    (stepState cfg s).parents =
      (processPendingAux cfg s.pending (extendChainsMap s.chains) s.parents []).2.1 := rfl

theorem stepState_pending (cfg : ControlFlowGraph) (s : BuildState) :
    (stepState cfg s).pending =
      (processPendingAux cfg s.pending (extendChainsMap s.chains) s.parents []).2.2 := rfl

theorem stepState_tree (cfg : ControlFlowGraph) (s : BuildState) :
    (stepState cfg s).treeNodes = s.treeNodes := rfl

/-- One outer-loop iteration preserves the invariant, never touches recorded
parents or stored chain prefixes, keeps parentless resolved nodes parentless,
and only shrinks the pending set. -/
theorem stepState_good {cfg : ControlFlowGraph} {s : BuildState}
    (hcl : EdgesClosed cfg) (gs : GoodState cfg s) :
    GoodState cfg (stepState cfg s) ∧
      (∀ n d, alookup n s.parents = some d →
        alookup n (stepState cfg s).parents = some d) ∧
      (∀ n, (alookup n s.chains).isSome → alookup n s.parents = none →
        alookup n (stepState cfg s).parents = none) ∧
      (∀ n l, alookup n s.chains = some l →
        ∃ l2, alookup n (stepState cfg s).chains = some (l ++ l2)) ∧
      keysOf (stepState cfg s).pending ⊆ keysOf s.pending := by
  have g0 : GoodCore cfg (extendChainsMap s.chains) s.parents ([] ++ s.pending) := by
    rw [List.nil_append]
    exact extendChainsMap_good gs.core
  obtain ⟨ihg, ih2, ih3, ih4, ih5, ih6⟩ := ppa_good hcl s.pending (extendChainsMap s.chains)
    s.parents [] g0
  have hkeys0 : keysOf ([] ++ s.pending) = keysOf s.pending := by rw [List.nil_append]
  refine ⟨?_, ?_, ?_, ?_, ?_⟩
  · refine
      { core := stepState_chains cfg s ▸ stepState_parents cfg s ▸
          stepState_pending cfg s ▸ ihg
        cover := ?_
        tree_nodup := stepState_tree cfg s ▸ gs.tree_nodup
        tree_sub := stepState_tree cfg s ▸ gs.tree_sub
        tree_sup := stepState_tree cfg s ▸ gs.tree_sup }
    intro m hmn
    rw [stepState_chains, stepState_pending]
    rcases gs.cover m hmn with hs | hp
    · obtain ⟨l, hl⟩ := Option.isSome_iff_exists.mp hs
      obtain ⟨l2, hl2⟩ := extendChainsMap_prefix hl
      have := ih2 m (l ++ l2) hl2
      exact Or.inl (by rw [this]; rfl)
    · exact ih6 m (hkeys0 ▸ hp)
  · intro m d hmd
    rw [stepState_parents]
    exact ih3 m d hmd
  · intro m hms hmn
    rw [stepState_parents]
    exact ih4 m ((extendChainsMap_isSome s.chains m).symm ▸ hms) hmn
  · intro m l hml
    rw [stepState_chains]
    obtain ⟨l2, hl2⟩ := extendChainsMap_prefix hml
    exact ⟨l2, ih2 m (l ++ l2) hl2⟩
  · intro m hmk
    rw [stepState_pending] at hmk
    exact hkeys0 ▸ ih5 hmk

/-- Case analysis for one `runLoop` unfolding. -/
theorem runLoop_cases {cfg : ControlFlowGraph} {fuel : Nat} {s t : BuildState}
    (h : runLoop cfg fuel s = some t) :
    (s.pending = [] ∧ t = s) ∨
      (s.pending ≠ [] ∧ ∃ fuel', fuel = fuel' + 1 ∧
        runLoop cfg fuel' (stepState cfg s) = some t) := by
  cases fuel with
  | zero =>
    unfold runLoop at h
    by_cases hp : s.pending = []
    · rw [if_pos hp] at h
      exact Or.inl ⟨hp, (Option.some_inj.mp h).symm⟩
    · rw [if_neg hp] at h
      exact absurd h (by simp)
  | succ fuel' =>
    unfold runLoop at h
    by_cases hp : s.pending = []
    · rw [if_pos hp] at h
      exact Or.inl ⟨hp, (Option.some_inj.mp h).symm⟩
    · rw [if_neg hp] at h
      exact Or.inr ⟨hp, fuel', rfl, h⟩

/-- Facts carried from any state to the final state of a successful run. -/
theorem runLoop_facts {cfg : ControlFlowGraph} (hcl : EdgesClosed cfg) :
    ∀ (fuel : Nat) (s t : BuildState), GoodState cfg s → runLoop cfg fuel s = some t →
      GoodState cfg t ∧ t.pending = [] ∧
        (∀ n d, alookup n s.parents = some d → alookup n t.parents = some d) ∧
        (∀ n, (alookup n s.chains).isSome → alookup n s.parents = none →
          alookup n t.parents = none) ∧
        (∀ n l, alookup n s.chains = some l → ∃ l2, alookup n t.chains = some (l ++ l2)) ∧
        t.treeNodes = s.treeNodes := by
  intro fuel
  induction fuel with
  | zero =>
    intro s t gs h
    rcases runLoop_cases h with ⟨hp, rfl⟩ | ⟨-, fuel', hf, -⟩
    · exact ⟨gs, hp, fun n d hd => hd, fun n _ hn => hn, fun n l hl => ⟨[], by simpa using hl⟩,
        rfl⟩
    · exact absurd hf (by simp)
  | succ fuel' ih =>
    intro s t gs h
    rcases runLoop_cases h with ⟨hp, rfl⟩ | ⟨-, fuel'', hf, hrun⟩
    · exact ⟨gs, hp, fun n d hd => hd, fun n _ hn => hn, fun n l hl => ⟨[], by simpa using hl⟩,
        rfl⟩
    · obtain ⟨gs', hpar, hnopar, hpre, hpend⟩ := stepState_good hcl gs
      have hf' : fuel'' = fuel' := by omega
      subst hf'
      obtain ⟨gt, htp, ih3, ih4, ih5, ih6⟩ := ih (stepState cfg s) t gs' hrun
      refine ⟨gt, htp, ?_, ?_, ?_, ?_⟩
      · intro n d hd
        exact ih3 n d (hpar n d hd)
      · intro n hns hnn
        have hns' : (alookup n (stepState cfg s).chains).isSome := by
          obtain ⟨l, hl⟩ := Option.isSome_iff_exists.mp hns
          obtain ⟨l2, hl2⟩ := hpre n l hl
          rw [hl2]; rfl
        exact ih4 n hns' (hnopar n hns hnn)
      · intro n l hl
        obtain ⟨l2, hl2⟩ := hpre n l hl
        obtain ⟨l3, hl3⟩ := ih5 n (l ++ l2) hl2
        exact ⟨l2 ++ l3, by rw [← List.append_assoc]; exact hl3⟩
      · rw [ih6]; rfl

/-! ### Phase 1 establishes the invariant -/

theorem mem_addTreeNode {n x : Nat} {tn : List Nat} :
    x ∈ addTreeNode n tn ↔ x = n ∨ x ∈ tn := by
  unfold addTreeNode
  by_cases h : n ∈ tn
  · rw [if_pos h]
    constructor
    · exact Or.inr
    · rintro (rfl | hx)
      · exact h
      · exact hx
  · rw [if_neg h]
    exact List.mem_cons

theorem addTreeNode_nodup {n : Nat} {tn : List Nat} (h : tn.Nodup) :
    (addTreeNode n tn).Nodup := by
  unfold addTreeNode
  by_cases hn : n ∈ tn
  · rw [if_pos hn]; exact h
  · rw [if_neg hn]; exact List.nodup_cons.mpr ⟨hn, h⟩

theorem initStep_empty {cfg : ControlFlowGraph} {s : BuildState} {n : Nat}
    (h : getDominatorCandidates cfg n = []) :
    initStep cfg s n =
      { treeNodes := addTreeNode n s.treeNodes, parents := s.parents,
        chains := emplaceA n [none] s.chains, pending := s.pending } := by
  simp only [initStep, h]

theorem initStep_single {cfg : ControlFlowGraph} {s : BuildState} {n c : Nat}
    (h : getDominatorCandidates cfg n = [c]) (hfresh : alookup n s.chains = none) :
    initStep cfg s n =
      { treeNodes := addTreeNode c (addTreeNode n s.treeNodes),
        parents := (n, c) :: s.parents,
        chains := (n, some c :: (alookup c s.chains).getD []) :: s.chains,
        pending := s.pending } := by
  simp only [initStep, h, hfresh]

theorem initStep_multi {cfg : ControlFlowGraph} {s : BuildState} {n c1 c2 : Nat}
    {tl : List Nat} (h : getDominatorCandidates cfg n = c1 :: c2 :: tl) :
    initStep cfg s n =
      { treeNodes := addTreeNode n s.treeNodes, parents := s.parents,
        chains := s.chains, pending := emplaceA n (c1 :: c2 :: tl) s.pending } := by
  simp only [initStep, h]

/-- Invariant of the phase-1 fold after processing the node list `done`. -/
structure InitInv (cfg : ControlFlowGraph) (done : List Nat) (s : BuildState) : Prop where
  core : GoodCore cfg s.chains s.parents s.pending
  covered : ∀ n ∈ done, (alookup n s.chains).isSome ∨ n ∈ keysOf s.pending
  chains_done : ∀ n ∈ keysOf s.chains, n ∈ done
  pending_done : ∀ n ∈ keysOf s.pending, n ∈ done
  tree_nodup : s.treeNodes.Nodup
  tree_sub : ∀ x ∈ s.treeNodes, x ∈ cfg.nodes
  tree_sup : ∀ x ∈ done, x ∈ s.treeNodes

theorem initStep_inv {cfg : ControlFlowGraph} (hcl : EdgesClosed cfg)
    {done : List Nat} {s : BuildState} {n : Nat}
    (hn : n ∈ cfg.nodes) (hnd : n ∉ done) (inv : InitInv cfg done s) :
    InitInv cfg (done ++ [n]) (initStep cfg s n) := by
  have hchfresh : alookup n s.chains = none :=
    alookup_eq_none_iff.mpr (fun hmem => hnd (inv.chains_done n hmem))
  have hpendfresh : n ∉ keysOf s.pending := fun hmem => hnd (inv.pending_done n hmem)
  have hpafresh : alookup n s.parents = none := by
    cases hpa : alookup n s.parents with
    | none => rfl
    | some d =>
      have := inv.core.parents_resolved n (mem_keysOf_of_alookup hpa)
      rw [hchfresh] at this
      simp at this
  have hdone_or : ∀ m : Nat, m ∈ done ++ [n] → m ∈ done ∨ m = n := by
    intro m hm
    simpa using hm
  rcases hshape : getDominatorCandidates cfg n with - | ⟨c, tl⟩
  · -- no candidates: root
    rw [initStep_empty hshape, emplaceA_of_none _ _ hchfresh]
    have hlook : ∀ m : Nat,
        alookup m ((n, ([none] : Chain)) :: s.chains) =
          if n = m then some [none] else alookup m s.chains := fun m => rfl
    have hmono : ∀ y : Nat, (alookup y s.chains).isSome →
        (alookup y ((n, ([none] : Chain)) :: s.chains)).isSome ∧
          alookup y s.parents = alookup y s.parents := by
      intro y hy
      refine ⟨?_, rfl⟩
      rw [hlook y]
      by_cases hny : n = y
      · rw [if_pos hny]; rfl
      · rw [if_neg hny]; exact hy
    refine
      { core := ?_
        covered := ?_
        chains_done := ?_
        pending_done := fun m hm => List.mem_append_left _ (inv.pending_done m hm)
        tree_nodup := addTreeNode_nodup inv.tree_nodup
        tree_sub := ?_
        tree_sup := ?_ }
    · refine
        { chains_nodup := by
            rw [keysOf_cons]
            exact List.nodup_cons.mpr ⟨alookup_eq_none_iff.mp hchfresh, inv.core.chains_nodup⟩
          pending_nodup := inv.core.pending_nodup
          parents_nodup := inv.core.parents_nodup
          pending_fresh := ?_
          parents_resolved := ?_
          chains_nodes := ?_
          pending_nodes := inv.core.pending_nodes
          pending_cands := inv.core.pending_cands
          parents_vals := inv.core.parents_vals
          chain_head := ?_
          chain_walk := ?_
          chain_nodes := ?_
          parent_cands := inv.core.parent_cands
          single_cand := ?_
          no_cand := inv.core.no_cand
          parent_dom := inv.core.parent_dom }
      · intro m hm
        have hnm : n ≠ m := fun hh => hpendfresh (hh ▸ hm)
        rw [hlook m, if_neg hnm]
        exact inv.core.pending_fresh m hm
      · intro m hm
        rw [hlook m]
        by_cases hnm : n = m
        · rw [if_pos hnm]; rfl
        · rw [if_neg hnm]
          exact inv.core.parents_resolved m hm
      · intro m hm
        rw [keysOf_cons] at hm
        rcases List.mem_cons.mp hm with rfl | hm'
        · exact hn
        · exact inv.core.chains_nodes m hm'
      · intro m L hL
        rw [hlook m] at hL
        by_cases hnm : n = m
        · rw [if_pos hnm] at hL
          obtain rfl := Option.some_inj.mp hL
          rw [← hnm, hpafresh]
          rfl
        · rw [if_neg hnm] at hL
          exact inv.core.chain_head m L hL
      · intro m L hL
        rw [hlook m] at hL
        by_cases hnm : n = m
        · rw [if_pos hnm] at hL
          obtain rfl := Option.some_inj.mp hL
          exact chainWalk_single none
        · rw [if_neg hnm] at hL
          exact chainWalk_mono hmono (inv.core.chain_walk m L hL)
      · intro m L hL x hx
        rw [hlook m] at hL
        by_cases hnm : n = m
        · rw [if_pos hnm] at hL
          obtain rfl := Option.some_inj.mp hL
          simp at hx
        · rw [if_neg hnm] at hL
          exact inv.core.chain_nodes m L hL x hx
      · intro m c hc hres
        by_cases hnm : n = m
        · rw [← hnm] at hc
          rw [hshape] at hc
          exact absurd hc (by simp)
        · rw [hlook m, if_neg hnm] at hres
          exact inv.core.single_cand m c hc hres
    · intro m hm
      rcases hdone_or m hm with hm' | rfl
      · rcases inv.covered m hm' with hs | hp
        · exact Or.inl ((hmono m hs).1)
        · exact Or.inr hp
      · refine Or.inl ?_
        rw [hlook m, if_pos rfl]
        rfl
    · intro m hm
      rw [keysOf_cons] at hm
      rcases List.mem_cons.mp hm with rfl | hm'
      · exact List.mem_append_right _ (by simp)
      · exact List.mem_append_left _ (inv.chains_done m hm')
    · intro x hx
      rcases mem_addTreeNode.mp hx with rfl | hx'
      · exact hn
      · exact inv.tree_sub x hx'
    · intro x hx
      rcases hdone_or x hx with hx' | rfl
      · exact mem_addTreeNode.mpr (Or.inr (inv.tree_sup x hx'))
      · exact mem_addTreeNode.mpr (Or.inl rfl)
  · rcases tl with - | ⟨c2, tl2⟩
    · -- exactly one candidate: direct resolution
      have hccand : c ∈ getDominatorCandidates cfg n := by rw [hshape]; simp
      have hcn : c ≠ n := ((mem_candidates_char cfg n c).mp hccand).1
      have hcnodes : c ∈ cfg.nodes := candidates_sub_nodes hcl hccand
      rw [initStep_single hshape hchfresh]
      set tail : Chain := (alookup c s.chains).getD [] with htail
      have hlook : ∀ m : Nat,
          alookup m ((n, some c :: tail) :: s.chains) =
            if n = m then some (some c :: tail) else alookup m s.chains := fun m => rfl
      have hlookpa : ∀ m : Nat,
          alookup m ((n, c) :: s.parents) =
            if n = m then some c else alookup m s.parents := fun m => rfl
      have hmono : ∀ y : Nat, (alookup y s.chains).isSome →
          (alookup y ((n, some c :: tail) :: s.chains)).isSome ∧
            alookup y ((n, c) :: s.parents) = alookup y s.parents := by
        intro y hy
        have hny : n ≠ y := by
          intro hh
          rw [← hh, hchfresh] at hy
          simp at hy
        constructor
        · rw [hlook y, if_neg hny]; exact hy
        · rw [hlookpa y, if_neg hny]
      refine
        { core := ?_
          covered := ?_
          chains_done := ?_
          pending_done := fun m hm => List.mem_append_left _ (inv.pending_done m hm)
          tree_nodup := addTreeNode_nodup (addTreeNode_nodup inv.tree_nodup)
          tree_sub := ?_
          tree_sup := ?_ }
      · refine
          { chains_nodup := by
              rw [keysOf_cons]
              exact List.nodup_cons.mpr ⟨alookup_eq_none_iff.mp hchfresh, inv.core.chains_nodup⟩
            pending_nodup := inv.core.pending_nodup
            parents_nodup := by
              rw [keysOf_cons]
              exact List.nodup_cons.mpr ⟨alookup_eq_none_iff.mp hpafresh, inv.core.parents_nodup⟩
            pending_fresh := ?_
            parents_resolved := ?_
            chains_nodes := ?_
            pending_nodes := inv.core.pending_nodes
            pending_cands := inv.core.pending_cands
            parents_vals := ?_
            chain_head := ?_
            chain_walk := ?_
            chain_nodes := ?_
            parent_cands := ?_
            single_cand := ?_
            no_cand := ?_
            parent_dom := ?_ }
        · intro m hm
          have hnm : n ≠ m := fun hh => hpendfresh (hh ▸ hm)
          rw [hlook m, if_neg hnm]
          exact inv.core.pending_fresh m hm
        · intro m hm
          rw [keysOf_cons] at hm
          rcases List.mem_cons.mp hm with rfl | hm'
          · rw [hlook m, if_pos rfl]; rfl
          · rw [hlook m]
            by_cases hnm : n = m
            · rw [if_pos hnm]; rfl
            · rw [if_neg hnm]
              exact inv.core.parents_resolved m hm'
        · intro m hm
          rw [keysOf_cons] at hm
          rcases List.mem_cons.mp hm with rfl | hm'
          · exact hn
          · exact inv.core.chains_nodes m hm'
        · intro m d hmd
          rw [hlookpa m] at hmd
          by_cases hnm : n = m
          · rw [if_pos hnm] at hmd
            obtain rfl := Option.some_inj.mp hmd
            exact hcnodes
          · rw [if_neg hnm] at hmd
            exact inv.core.parents_vals m d hmd
        · intro m L hL
          rw [hlook m] at hL
          by_cases hnm : n = m
          · rw [if_pos hnm] at hL
            obtain rfl := Option.some_inj.mp hL
            rw [hlookpa m, if_pos hnm]
            rfl
          · rw [if_neg hnm] at hL
            rw [hlookpa m, if_neg hnm]
            exact inv.core.chain_head m L hL
        · intro m L hL
          rw [hlook m] at hL
          by_cases hnm : n = m
          · rw [if_pos hnm] at hL
            obtain rfl := Option.some_inj.mp hL
            refine chainWalk_mono hmono ?_
            cases htc : alookup c s.chains with
            | none =>
              rw [htail, htc]
              exact chainWalk_single _
            | some lc =>
              rw [htail, htc]
              exact chainWalk_cons (inv.core.chain_walk c lc htc)
                (inv.core.chain_head c lc htc) (by simp [htc])
          · rw [if_neg hnm] at hL
            exact chainWalk_mono hmono (inv.core.chain_walk m L hL)
        · intro m L hL x hx
          rw [hlook m] at hL
          by_cases hnm : n = m
          · rw [if_pos hnm] at hL
            obtain rfl := Option.some_inj.mp hL
            rcases List.mem_cons.mp hx with hxc | hxt
            · obtain rfl := Option.some_inj.mp hxc.symm
              exact hcnodes
            · cases htc : alookup c s.chains with
              | none =>
                rw [htail, htc] at hxt
                simp at hxt
              | some lc =>
                rw [htail, htc] at hxt
                exact inv.core.chain_nodes c lc htc x hxt
          · rw [if_neg hnm] at hL
            exact inv.core.chain_nodes m L hL x hx
        · intro m d hmd
          rw [hlookpa m] at hmd
          by_cases hnm : n = m
          · rw [← hnm, hshape]
            simp
          · rw [if_neg hnm] at hmd
            exact inv.core.parent_cands m d hmd
        · intro m c' hc' hres
          by_cases hnm : n = m
          · rw [← hnm, hshape] at hc'
            have hcc : c = c' := by simpa using hc'
            rw [hlookpa m, if_pos hnm, hcc]
          · rw [hlook m, if_neg hnm] at hres
            rw [hlookpa m, if_neg hnm]
            exact inv.core.single_cand m c' hc' hres
        · intro m hm
          by_cases hnm : n = m
          · rw [← hnm, hshape] at hm
            exact absurd hm (by simp)
          · rw [hlookpa m, if_neg hnm]
            exact inv.core.no_cand m hm
        · intro m d hmd c' hc'
          rw [hlookpa m] at hmd
          by_cases hnm : n = m
          · rw [if_pos hnm] at hmd
            obtain rfl := Option.some_inj.mp hmd
            rw [← hnm, hshape] at hc'
            simp only [List.mem_singleton] at hc'
            subst hc'
            exact ⟨0, rfl⟩
          · rw [if_neg hnm] at hmd
            obtain ⟨k, hk⟩ := inv.core.parent_dom m d hmd c' hc'
            exact ⟨k, parentIter_fresh hpafresh hk⟩
      · intro m hm
        rcases hdone_or m hm with hm' | rfl
        · rcases inv.covered m hm' with hs | hp
          · exact Or.inl ((hmono m hs).1)
          · exact Or.inr hp
        · refine Or.inl ?_
          rw [hlook m, if_pos rfl]
          rfl
      · intro m hm
        rw [keysOf_cons] at hm
        rcases List.mem_cons.mp hm with rfl | hm'
        · exact List.mem_append_right _ (by simp)
        · exact List.mem_append_left _ (inv.chains_done m hm')
      · intro x hx
        rcases mem_addTreeNode.mp hx with rfl | hx'
        · exact hcnodes
        · rcases mem_addTreeNode.mp hx' with rfl | hx''
          · exact hn
          · exact inv.tree_sub x hx''
      · intro x hx
        rcases hdone_or x hx with hx' | rfl
        · exact mem_addTreeNode.mpr (Or.inr (mem_addTreeNode.mpr (Or.inr (inv.tree_sup x hx'))))
        · exact mem_addTreeNode.mpr (Or.inr (mem_addTreeNode.mpr (Or.inl rfl)))
    · -- two or more candidates: deferred
      have hpnone : alookup n s.pending = none :=
        alookup_eq_none_iff.mpr hpendfresh
      rw [initStep_multi hshape, emplaceA_of_none _ _ hpnone]
      refine
        { core := ?_
          covered := ?_
          chains_done := fun m hm => List.mem_append_left _ (inv.chains_done m hm)
          pending_done := ?_
          tree_nodup := addTreeNode_nodup inv.tree_nodup
          tree_sub := ?_
          tree_sup := ?_ }
      · refine
          { chains_nodup := inv.core.chains_nodup
            pending_nodup := by
              rw [keysOf_cons]
              exact List.nodup_cons.mpr ⟨hpendfresh, inv.core.pending_nodup⟩
            parents_nodup := inv.core.parents_nodup
            pending_fresh := ?_
            parents_resolved := inv.core.parents_resolved
            chains_nodes := inv.core.chains_nodes
            pending_nodes := ?_
            pending_cands := ?_
            parents_vals := inv.core.parents_vals
            chain_head := inv.core.chain_head
            chain_walk := inv.core.chain_walk
            chain_nodes := inv.core.chain_nodes
            parent_cands := inv.core.parent_cands
            single_cand := inv.core.single_cand
            no_cand := inv.core.no_cand
            parent_dom := inv.core.parent_dom }
        · intro m hm
          rw [keysOf_cons] at hm
          rcases List.mem_cons.mp hm with rfl | hm'
          · exact hchfresh
          · exact inv.core.pending_fresh m hm'
        · intro m hm
          rw [keysOf_cons] at hm
          rcases List.mem_cons.mp hm with rfl | hm'
          · exact hn
          · exact inv.core.pending_nodes m hm'
        · intro p hp
          rcases List.mem_cons.mp hp with rfl | hp'
          · exact ⟨hshape.symm, by simp⟩
          · exact inv.core.pending_cands p hp'
      · intro m hm
        rcases hdone_or m hm with hm' | rfl
        · rcases inv.covered m hm' with hs | hp
          · exact Or.inl hs
          · exact Or.inr (by rw [keysOf_cons]; exact List.mem_cons_of_mem _ hp)
        · exact Or.inr (by rw [keysOf_cons]; exact List.mem_cons_self _ _)
      · intro m hm
        rw [keysOf_cons] at hm
        rcases List.mem_cons.mp hm with rfl | hm'
        · exact List.mem_append_right _ (by simp)
        · exact List.mem_append_left _ (inv.pending_done m hm')
      · intro x hx
        rcases mem_addTreeNode.mp hx with rfl | hx'
        · exact hn
        · exact inv.tree_sub x hx'
      · intro x hx
        rcases hdone_or x hx with hx' | rfl
        · exact mem_addTreeNode.mpr (Or.inr (inv.tree_sup x hx'))
        · exact mem_addTreeNode.mpr (Or.inl rfl)

theorem initFold_inv {cfg : ControlFlowGraph} (hcl : EdgesClosed cfg) :
    ∀ (todo done : List Nat) (s : BuildState),
      (done ++ todo).Nodup → (∀ x ∈ todo, x ∈ cfg.nodes) → InitInv cfg done s →
      InitInv cfg (done ++ todo) (todo.foldl (initStep cfg) s) := by
  intro todo
  induction todo with
  | nil =>
    intro done s _ _ inv
    rw [List.append_nil]
    exact inv
  | cons n todo ih =>
    intro done s hnd hmem inv
    have hnd' : n ∉ done := by
      intro hh
      have h1 := List.nodup_cons.mp (List.nodup_middle.mp hnd)
      exact h1.1 (List.mem_append_left _ hh)
    have inv' := initStep_inv hcl (hmem n (by simp)) hnd' inv
    have hnodup2 : ((done ++ [n]) ++ todo).Nodup := by simpa using hnd
    have hres := ih (done ++ [n]) (initStep cfg s n) hnodup2
      (fun x hx => hmem x (by simp [hx])) inv'
    simp only [List.foldl_cons]
    simpa using hres

theorem initInv_empty (cfg : ControlFlowGraph) :
    InitInv cfg [] { treeNodes := [], parents := [], chains := [], pending := [] } := by
  refine
    { core := ?_
      covered := fun n hn => absurd hn (List.not_mem_nil n)
      chains_done := fun n hn => absurd hn (List.not_mem_nil n)
      pending_done := fun n hn => absurd hn (List.not_mem_nil n)
      tree_nodup := List.nodup_nil
      tree_sub := fun x hx => absurd hx (List.not_mem_nil x)
      tree_sup := fun x hx => absurd hx (List.not_mem_nil x) }
  exact
    { chains_nodup := List.nodup_nil
      pending_nodup := List.nodup_nil
      parents_nodup := List.nodup_nil
      pending_fresh := fun n hn => absurd hn (List.not_mem_nil n)
      parents_resolved := fun n hn => absurd hn (List.not_mem_nil n)
      chains_nodes := fun n hn => absurd hn (List.not_mem_nil n)
      pending_nodes := fun n hn => absurd hn (List.not_mem_nil n)
      pending_cands := fun p hp => absurd hp (List.not_mem_nil p)
      parents_vals := fun n d h => absurd h (by simp [alookup])
      chain_head := fun n l h => absurd h (by simp [alookup])
      chain_walk := fun n l h => absurd h (by simp [alookup])
      chain_nodes := fun n l h => absurd h (by simp [alookup])
      parent_cands := fun n d h => absurd h (by simp [alookup])
      single_cand := fun n c _ h => absurd h (by simp [alookup])
      no_cand := fun n _ => rfl
      parent_dom := fun n d h => absurd h (by simp [alookup]) }

/-- After phase 1 the whole-state invariant holds. -/
theorem initPass_good {cfg : ControlFlowGraph} (hcl : EdgesClosed cfg)
    (hnodup : cfg.nodes.Nodup) : GoodState cfg (initPass cfg) := by
  have h := initFold_inv hcl cfg.nodes [] ⟨[], [], [], []⟩ (by simpa using hnodup)
    (fun x hx => hx) (initInv_empty cfg)
  rw [List.nil_append] at h
  exact
    { core := h.core
      cover := h.covered
      tree_nodup := h.tree_nodup
      tree_sub := h.tree_sub
      tree_sup := h.tree_sup }

theorem alookup_some_mem {β : Type} {k : Nat} {v : β} :
    ∀ {m : List (Nat × β)}, alookup k m = some v → (k, v) ∈ m := by
  intro m
  induction m with
  | nil => intro h; simp [alookup] at h
  | cons e rest ih =>
    intro h
    obtain ⟨k', v'⟩ := e
    rw [alookup_cons] at h
    by_cases hk : k' = k
    · rw [if_pos hk] at h
      obtain rfl := Option.some_inj.mp h
      subst hk
      exact List.mem_cons_self _ _
    · rw [if_neg hk] at h
      exact List.mem_cons_of_mem _ (ih h)

theorem eq_singleton_of_nodup {l : List Nat} {p : Nat} (hnd : l.Nodup)
    (hne : l ≠ []) (hall : ∀ x ∈ l, x = p) : l = [p] := by
  cases l with
  | nil => exact absurd rfl hne
  | cons a t =>
    have ha : a = p := hall a (by simp)
    subst ha
    cases t with
    | nil => rfl
    | cons b t2 =>
      have hb : b = a := hall b (by simp)
      subst hb
      exact absurd (List.nodup_cons.mp hnd).1 (by simp)

/-- All the facts available about a completed run. -/
theorem createDominatorTree_final {cfg : ControlFlowGraph} {fuel : Nat} {t : BuildState}
    (hcl : EdgesClosed cfg) (hnodup : cfg.nodes.Nodup)
    (ht : createDominatorTree cfg fuel = some t) :
    GoodState cfg t ∧ t.pending = [] ∧
      ∀ n ∈ cfg.nodes, (alookup n t.chains).isSome := by
  obtain ⟨gt, hpend, -, -, -, -⟩ :=
    runLoop_facts hcl fuel (initPass cfg) t (initPass_good hcl hnodup) ht
  refine ⟨gt, hpend, ?_⟩
  intro n hn
  rcases gt.cover n hn with hs | hpk
  · exact hs
  · rw [hpend] at hpk
    simp [keysOf] at hpk

/-! ### What happens to the one pending node that a pass resolves -/

/-- If, at its turn in the pass (i.e. with the chain map as updated by the
entries processed before it), the merge attempt for a pending node succeeds
with working list `w`, then at the end of the pass the node's chain is `w`,
the node has left the pending set, and its recorded parent is exactly `w`'s
first entry — a tree edge when that entry is an actual node, no parent at all
when it is the sentinel. -/
theorem ppa_middle {cfg : ControlFlowGraph} (hcl : EdgesClosed cfg) :
    ∀ (pre : List (Nat × List Nat)) (n : Nat) (cands : List Nat)
      (post : List (Nat × List Nat)) (ch : List (Nat × Chain)) (pa : List (Nat × Nat))
      (acc : List (Nat × List Nat)) (w : Chain),
      GoodCore cfg ch pa (acc ++ (pre ++ (n, cands) :: post)) →
      mergeChains (processPendingAux cfg pre ch pa acc).1 cands = some w →
      alookup n (processPendingAux cfg (pre ++ (n, cands) :: post) ch pa acc).1 = some w ∧
        n ∉ keysOf (processPendingAux cfg (pre ++ (n, cands) :: post) ch pa acc).2.2 ∧
        (∀ d, w.head? = some (some d) →
          alookup n (processPendingAux cfg (pre ++ (n, cands) :: post) ch pa acc).2.1 = some d) ∧
        (w.head? = some none →
          alookup n (processPendingAux cfg (pre ++ (n, cands) :: post) ch pa acc).2.1 = none) := by
  intro pre
  induction pre with
  | nil =>
    intro n cands post ch pa acc w g hmerge
    simp only [processPendingAux] at hmerge
    simp only [List.nil_append] at g ⊢
    simp only [processPendingAux]
    rw [hmerge]
    dsimp only
    obtain ⟨hfresh, hnpa, hcands, hlen, hnnotin, hnodup2⟩ :=
      pend_middle_facts g
    obtain ⟨-, -, -, -, -, -, hwne⟩ := mergeChains_suffix hmerge
    rw [emplaceA_of_none w ch hfresh]
    have hself : alookup n ((n, w) :: ch) = some w := by rw [alookup_cons, if_pos rfl]
    cases w with
    | nil => exact absurd rfl hwne
    | cons e wt =>
      cases e with
      | some d =>
        simp only [List.head?_cons]
        have g2 : GoodCore cfg ((n, some d :: wt) :: ch) ((n, d) :: pa) (acc ++ post) :=
          resolve_good_node hcl g hmerge rfl
        obtain ⟨-, ih2, ih3, -, ih5, -⟩ := ppa_good hcl post ((n, some d :: wt) :: ch)
          ((n, d) :: pa) acc g2
        refine ⟨ih2 n (some d :: wt) hself, ?_, ?_, ?_⟩
        · intro hmem
          exact hnnotin (by
            have := ih5 hmem
            rw [keysOf_append] at this
            exact this)
        · intro d' hd'
          simp only [List.head?_cons, Option.some_inj] at hd'
          subst hd'
          exact ih3 n d (by rw [alookup_cons, if_pos rfl])
        · intro hnone
          simp at hnone
      | none =>
        simp only [List.head?_cons]
        have g2 : GoodCore cfg ((n, (none : Option Nat) :: wt) :: ch) pa (acc ++ post) :=
          resolve_good_root hcl g hmerge rfl
        obtain ⟨-, ih2, -, ih4, ih5, -⟩ := ppa_good hcl post ((n, (none : Option Nat) :: wt) :: ch)
          pa acc g2
        refine ⟨ih2 n ((none : Option Nat) :: wt) hself, ?_, ?_, ?_⟩
        · intro hmem
          exact hnnotin (by
            have := ih5 hmem
            rw [keysOf_append] at this
            exact this)
        · intro d' hd'
          simp at hd'
        · intro hnone
          exact ih4 n (by rw [hself]; rfl) hnpa
  | cons q pre ih =>
    obtain ⟨m, cs⟩ := q
    intro n cands post ch pa acc w g hmerge
    simp only [List.cons_append] at g ⊢
    simp only [processPendingAux] at hmerge ⊢
    cases hm0 : mergeChains ch cs with
    | none =>
      rw [hm0] at hmerge
      dsimp only at hmerge ⊢
      have hassoc : (acc ++ [(m, cs)]) ++ (pre ++ (n, cands) :: post) =
          acc ++ ((m, cs) :: (pre ++ (n, cands) :: post)) := by simp
      have g' : GoodCore cfg ch pa ((acc ++ [(m, cs)]) ++ (pre ++ (n, cands) :: post)) :=
        hassoc ▸ g
      exact ih n cands post ch pa (acc ++ [(m, cs)]) w g' hmerge
    | some w0 =>
      rw [hm0] at hmerge
      dsimp only at hmerge ⊢
      obtain ⟨hfresh0, -, -, -, -, -⟩ :=
        pend_middle_facts g
      obtain ⟨-, -, -, -, -, -, hw0ne⟩ := mergeChains_suffix hm0
      rw [emplaceA_of_none w0 ch hfresh0] at hmerge ⊢
      cases w0 with
      | nil => exact absurd rfl hw0ne
      | cons e wt =>
        cases e with
        | some d0 =>
          simp only [List.head?_cons] at hmerge ⊢
          have g2 : GoodCore cfg ((m, some d0 :: wt) :: ch) ((m, d0) :: pa)
              (acc ++ (pre ++ (n, cands) :: post)) :=
            resolve_good_node hcl g hm0 rfl
          exact ih n cands post ((m, some d0 :: wt) :: ch) ((m, d0) :: pa) acc w g2 hmerge
        | none =>
          simp only [List.head?_cons] at hmerge ⊢
          have g2 : GoodCore cfg ((m, (none : Option Nat) :: wt) :: ch) pa
              (acc ++ (pre ++ (n, cands) :: post)) :=
            resolve_good_root hcl g hm0 rfl
          exact ih n cands post ((m, (none : Option Nat) :: wt) :: ch) pa acc w g2 hmerge

/-! ### Example CFGs used by concrete claim instances -/



/-- The diamond CFG of the spec's testable properties: A=0, B=1, C=2, D=3 with
edges A→B, A→C, B→D, C→D and no back-edge or work-group-loop flags. -/
def diamondCfg : ControlFlowGraph :=
  { nodes := [0, 1, 2, 3],
    edges := [{ source := 0, target := 1, isBackEdge := false, isWorkGroupLoop := false },
              { source := 0, target := 2, isBackEdge := false, isWorkGroupLoop := false },
              { source := 1, target := 3, isBackEdge := false, isWorkGroupLoop := false },
              { source := 2, target := 3, isBackEdge := false, isWorkGroupLoop := false }] }

/-! ### Claim C2 -/

/-- Claim C2: for every CFG node `n`, the computed dominator-candidate set
contains exactly the predecessors `p ≠ n` reached through at least one edge
`p→n` that is neither a back-edge (as judged from `p`) nor a work-group-loop
edge; in particular a self-loop never makes `n` its own candidate.  The
embedding of `getDominatorCandidates` is a pure function of the CFG value, so
freedom from side effects on the CFG is inherent in the statement. -/
theorem c2_candidate_set_characterization (cfg : ControlFlowGraph) (n p : Nat) :
    p ∈ getDominatorCandidates cfg n ↔
      p ≠ n ∧ ∃ e ∈ cfg.edges, e.source = p ∧ e.target = n ∧
        e.isBackEdge = false ∧ e.isWorkGroupLoop = false :=
  mem_candidates_char cfg n p

/-! ### Claim C7 -/

/-- Claim C7: on the diamond CFG (A→B, A→C, B→D, C→D, no excluded edges) the
builder terminates and produces dom(B)=A, dom(C)=A and dom(D)=A, where D's two
candidates B and C are merged to their nearest common ancestor A, and the
entry A has no parent. -/
theorem c7_diamond_merge :
    (createDominatorTree diamondCfg 1).map
        (fun t => (alookup 1 t.parents, alookup 2 t.parents, alookup 3 t.parents,
                   alookup 0 t.parents)) =
      some (some 0, some 0, some 0, none) := by decide

/-- The build state the diamond CFG produces (used as a concrete witness). -/
def diamondTree : BuildState :=
  { treeNodes := [3, 2, 1, 0],
    parents := [(3, 0), (2, 0), (1, 0)],
    chains := [(3, [some 0, none]), (2, [some 0, none]), (1, [some 0, none]), (0, [none])],
    pending := [] }

/-! ### Claim C3 -/

/-- Claim C3: whenever the builder completes on a CFG (with well-formed node and
edge lists), every node whose candidate set has exactly one element `c` ends
up with the tree edge `c → node` (its unique parent is `c`), and every node
with an empty candidate set is a root: no parent is recorded for it. -/
theorem c3_single_and_zero_candidates (cfg : ControlFlowGraph) (fuel : Nat)
    (t : BuildState) (n c : Nat) (hcl : EdgesClosed cfg) (hnodup : cfg.nodes.Nodup)
    (ht : createDominatorTree cfg fuel = some t) (hn : n ∈ cfg.nodes) :
    (getDominatorCandidates cfg n = [c] → alookup n t.parents = some c) ∧
      (getDominatorCandidates cfg n = [] → alookup n t.parents = none) := by
  obtain ⟨gt, hpend, hres⟩ := createDominatorTree_final hcl hnodup ht
  constructor
  · intro hc
    exact gt.core.single_cand n c hc (hres n hn)
  · intro hc
    exact gt.core.no_cand n hc

/-- Witness for C3 at the diamond CFG: node B (= 1) has the single candidate
A (= 0) and ends up with parent A; the entry A has no candidates and ends up
parentless. -/
theorem c3_witness :
    EdgesClosed diamondCfg ∧ diamondCfg.nodes.Nodup ∧
      createDominatorTree diamondCfg 1 = some diamondTree ∧
      getDominatorCandidates diamondCfg 1 = [0] ∧
      alookup 1 diamondTree.parents = some 0 ∧
      getDominatorCandidates diamondCfg 0 = [] ∧
      alookup 0 diamondTree.parents = none := by
  refine ⟨by decide, by decide, by decide, by decide, ?_, by decide, ?_⟩
  · exact (c3_single_and_zero_candidates diamondCfg 1 diamondTree 1 0 (by decide) (by decide)
      (by decide) (by decide)).1 (by decide)
  · exact (c3_single_and_zero_candidates diamondCfg 1 diamondTree 0 0 (by decide) (by decide)
      (by decide) (by decide)).2 (by decide)

/-! ### Claim C8 -/

/-- Claim C8: whenever the builder completes, the produced tree has exactly one
tree node per CFG node — the created tree-node list has no duplicates and
contains exactly the CFG's nodes, including parentless roots. -/
theorem c8_tree_nodes_bijective (cfg : ControlFlowGraph) (fuel : Nat)
    (t : BuildState) (hcl : EdgesClosed cfg) (hnodup : cfg.nodes.Nodup)
    (ht : createDominatorTree cfg fuel = some t) :
    t.treeNodes.Nodup ∧ ∀ x : Nat, x ∈ t.treeNodes ↔ x ∈ cfg.nodes := by
  obtain ⟨gt, -, -⟩ := createDominatorTree_final hcl hnodup ht
  exact ⟨gt.tree_nodup, fun x => ⟨gt.tree_sub x, gt.tree_sup x⟩⟩

/-- Witness for C8 at the diamond CFG. -/
theorem c8_witness :
    EdgesClosed diamondCfg ∧ diamondCfg.nodes.Nodup ∧
      createDominatorTree diamondCfg 1 = some diamondTree ∧
      diamondTree.treeNodes.Nodup ∧ (3 ∈ diamondTree.treeNodes ↔ 3 ∈ diamondCfg.nodes) := by
  refine ⟨by decide, by decide, by decide, ?_, ?_⟩
  · exact (c8_tree_nodes_bijective diamondCfg 1 diamondTree (by decide) (by decide)
      (by decide)).1
  · exact (c8_tree_nodes_bijective diamondCfg 1 diamondTree (by decide) (by decide)
      (by decide)).2 3

/-! ### Claim C9 -/

theorem runLoop_mono {cfg : ControlFlowGraph} :
    ∀ (f : Nat) (s t : BuildState), runLoop cfg f s = some t →
      ∀ f', f ≤ f' → runLoop cfg f' s = some t := by
  intro f
  induction f with
  | zero =>
    intro s t h f' _
    rcases runLoop_cases h with ⟨hp, rfl⟩ | ⟨-, f'', hf, -⟩
    · cases f' with
      | zero => exact h
      | succ f'' =>
        unfold runLoop
        rw [if_pos hp]
    · exact absurd hf (by simp)
  | succ f ih =>
    intro s t h f' hle
    rcases runLoop_cases h with ⟨hp, rfl⟩ | ⟨hp, f'', hf, hrun⟩
    · cases f' with
      | zero => unfold runLoop; rw [if_pos hp]
      | succ f2 => unfold runLoop; rw [if_pos hp]
    · have hf2 : f'' = f := by omega
      subst hf2
      cases f' with
      | zero => omega
      | succ f2 =>
        unfold runLoop
        rw [if_neg hp]
        exact ih (stepState cfg s) t hrun f2 (by omega)

/-- Claim C9: construction is deterministic — two successful builds from the
same unmodified CFG (with any sufficient iteration budgets) assign every node
the same parent.  In the embedding the builder is a pure function of the CFG,
so the only freedom is the fuel, and the result does not depend on it. -/
theorem c9_deterministic (cfg : ControlFlowGraph) (fuel₁ fuel₂ : Nat)
    (t₁ t₂ : BuildState) (h₁ : createDominatorTree cfg fuel₁ = some t₁)
    (h₂ : createDominatorTree cfg fuel₂ = some t₂) :
    ∀ n : Nat, alookup n t₁.parents = alookup n t₂.parents := by
  have h₁' : runLoop cfg fuel₁ (initPass cfg) = some t₁ := h₁
  have h₂' : runLoop cfg fuel₂ (initPass cfg) = some t₂ := h₂
  have heq : t₁ = t₂ := by
    rcases Nat.le_total fuel₁ fuel₂ with hle | hle
    · have := runLoop_mono fuel₁ (initPass cfg) t₁ h₁' fuel₂ hle
      rw [h₂'] at this
      exact Option.some_inj.mp this.symm
    · have := runLoop_mono fuel₂ (initPass cfg) t₂ h₂' fuel₁ hle
      rw [h₁'] at this
      exact Option.some_inj.mp this
  subst heq
  intro n
  rfl

/-- Witness for C9 at the diamond CFG with two different fuel budgets. -/
theorem c9_witness :
    createDominatorTree diamondCfg 1 = some diamondTree ∧
      createDominatorTree diamondCfg 5 = some diamondTree ∧
      alookup 3 diamondTree.parents = alookup 3 diamondTree.parents := by
  refine ⟨by decide, by decide, ?_⟩
  exact c9_deterministic diamondCfg 1 5 diamondTree diamondTree (by decide) (by decide) 3

/-! ### Claim C10 -/

/-- Claim C10: a node all of whose qualifying incoming edges (neither back-edges
nor work-group-loop edges, not from the node itself) come from the single
predecessor `p` — even through several parallel edges — has the candidate set
`[p]` (candidates are collected as a set), is resolved by the direct pass with
parent `p`, and is never deferred to the pending merge stage. -/
theorem c10_parallel_edges_single_candidate (cfg : ControlFlowGraph) (n p : Nat)
    (hcl : EdgesClosed cfg) (hnodup : cfg.nodes.Nodup) (hn : n ∈ cfg.nodes)
    (hp : p ≠ n)
    (hex : ∃ e ∈ cfg.edges, e.source = p ∧ e.target = n ∧
      e.isBackEdge = false ∧ e.isWorkGroupLoop = false)
    (hall : ∀ e ∈ cfg.edges, e.target = n → e.isBackEdge = false →
      e.isWorkGroupLoop = false → e.source ≠ n → e.source = p) :
    getDominatorCandidates cfg n = [p] ∧
      alookup n (initPass cfg).pending = none ∧
      alookup n (initPass cfg).parents = some p := by
  have hcand : getDominatorCandidates cfg n = [p] := by
    refine eq_singleton_of_nodup ?_ ?_ ?_
    · exact List.Nodup.filter _ (nodup_dedupFirst _)
    · intro hnil
      have hpmem : p ∈ getDominatorCandidates cfg n :=
        (mem_candidates_char cfg n p).mpr ⟨hp, hex⟩
      rw [hnil] at hpmem
      simp at hpmem
    · intro x hx
      obtain ⟨hxn, e, he, hs, htgt, hb, hw⟩ := (mem_candidates_char cfg n x).mp hx
      exact hs ▸ hall e he htgt hb hw (hs ▸ hxn)
  have gs := initPass_good hcl hnodup
  have hpendnone : alookup n (initPass cfg).pending = none := by
    cases hlp : alookup n (initPass cfg).pending with
    | none => rfl
    | some v =>
      obtain ⟨-, hlen⟩ := gs.core.pending_cands (n, v) (alookup_some_mem hlp)
      obtain ⟨hceq, -⟩ := gs.core.pending_cands (n, v) (alookup_some_mem hlp)
      rw [hceq, hcand] at hlen
      simp at hlen
  have hressome : (alookup n (initPass cfg).chains).isSome := by
    rcases gs.cover n hn with hs | hpk
    · exact hs
    · exact absurd (alookup_eq_none_iff.mp hpendnone) (fun hf => hf hpk)
  exact ⟨hcand, hpendnone, gs.core.single_cand n p hcand hressome⟩

/-! ### Claims C1 and C4 -/

/-- Step-level consequences of a successful merge for the node at its turn. -/
theorem step_resolves {cfg : ControlFlowGraph} {s : BuildState}
    (hcl : EdgesClosed cfg) (gs : GoodState cfg s)
    {pre post : List (Nat × List Nat)} {n : Nat} {cands : List Nat} {w : Chain}
    (hpend : s.pending = pre ++ (n, cands) :: post)
    (hmerge : mergeChains (processPendingAux cfg pre (extendChainsMap s.chains)
        s.parents []).1 cands = some w) :
    alookup n (stepState cfg s).chains = some w ∧
      n ∉ keysOf (stepState cfg s).pending ∧
      (∀ d, w.head? = some (some d) → alookup n (stepState cfg s).parents = some d) ∧
      (w.head? = some none → alookup n (stepState cfg s).parents = none) := by
  have g0 : GoodCore cfg (extendChainsMap s.chains) s.parents
      ([] ++ (pre ++ (n, cands) :: post)) := by
    rw [List.nil_append, ← hpend]
    exact extendChainsMap_good gs.core
  have h := ppa_middle hcl pre n cands post (extendChainsMap s.chains) s.parents [] w g0 hmerge
  rw [stepState_chains, stepState_pending, stepState_parents, hpend]
  exact h

/-- Claim C1: whenever the builder resolves a pending node with more than one
dominator candidate, the immediate dominator it records in the tree is exactly
the first entry of the working list computed by the claim's procedure — the
list seeded with the first candidate prepended to that candidate's chain and
truncated, for each remaining candidate `C`, at its first entry equal to `C`
or occurring in `C`'s chain (`mergeChains`, the nearest-common-ancestor
search of the chains as they stand at the node's turn in the pass). -/
theorem c1_merge_records_nearest_common_ancestor (cfg : ControlFlowGraph)
    (fuel : Nat) (s t : BuildState) (pre post : List (Nat × List Nat)) (n : Nat)
    (cands : List Nat) (w : Chain) (d : Nat)
    (hcl : EdgesClosed cfg) (gs : GoodState cfg s)
    (hpend : s.pending = pre ++ (n, cands) :: post)
    (_hlen : 2 ≤ cands.length)
    (hmerge : mergeChains (processPendingAux cfg pre (extendChainsMap s.chains)
        s.parents []).1 cands = some w)
    (hhead : w.head? = some (some d))
    (hrun : runLoop cfg fuel s = some t) :
    alookup n t.parents = some d := by
  obtain ⟨hchain, hpendout, hpar, -⟩ := step_resolves hcl gs hpend hmerge
  have hne : s.pending ≠ [] := by rw [hpend]; simp
  rcases runLoop_cases hrun with ⟨hp, -⟩ | ⟨-, f', hf, hrun'⟩
  · exact absurd hp hne
  · obtain ⟨gs', -, -, -, -⟩ := stepState_good hcl gs
    obtain ⟨-, -, hpar', -, -, -⟩ := runLoop_facts hcl f' (stepState cfg s) t gs' hrun'
    exact hpar' n d (hpar d hhead)

/-- Witness for C1: in the diamond CFG, pending node D (= 3) with candidates
`[1, 2]` is merged to the working list `[some 0, none]`, and the final tree
records parent 0 for node 3. -/
theorem c1_witness :
    (initPass diamondCfg).pending = [] ++ (3, [1, 2]) :: [] ∧
      2 ≤ ([1, 2] : List Nat).length ∧
      mergeChains (processPendingAux diamondCfg [] (extendChainsMap (initPass diamondCfg).chains)
          (initPass diamondCfg).parents []).1 [1, 2] = some [some 0, none] ∧
      runLoop diamondCfg 1 (initPass diamondCfg) = some diamondTree ∧
      alookup 3 diamondTree.parents = some 0 := by
  refine ⟨by decide, by decide, by decide, by decide, ?_⟩
  exact c1_merge_records_nearest_common_ancestor diamondCfg 1 (initPass diamondCfg) diamondTree
    [] [] 3 [1, 2] [some 0, none] 0 (by decide)
    (initPass_good (by decide) (by decide)) (by decide) (by decide) (by decide) (by decide)
    (by decide)

/-- The CFG with two roots 0 and 1 and a merge node 2 below both — the merge
for node 2 succeeds with the sentinel as first working-list entry. -/
def twoRootsCfg : ControlFlowGraph :=
  { nodes := [0, 1, 2],
    edges := [{ source := 0, target := 2, isBackEdge := false, isWorkGroupLoop := false },
              { source := 1, target := 2, isBackEdge := false, isWorkGroupLoop := false }] }

/-- The build state `twoRootsCfg` produces. -/
def twoRootsTree : BuildState :=
  { treeNodes := [2, 1, 0],
    parents := [],
    chains := [(2, [none]), (1, [none]), (0, [none])],
    pending := [] }

/-- Counterexample to claim C4 as stated: in `twoRootsCfg`, the merge attempt
for pending node 2 succeeds with working list `[none]` (all candidate chains
known, non-empty result) — the node's chain is stored and it leaves the
pending set — yet no tree edge towards node 2 is recorded (the tree has no
edges at all), because `DominatorTree.cpp:133` guards `addEdge` behind
`if(auto first = dominatorCandidates.front())`, which skips edge recording
when the first entry is the null sentinel.  This contradicts the claim that a
tree edge is recorded "including the case where the first entry is the
no-dominator sentinel". -/
theorem c4_counterexample :
    (initPass twoRootsCfg).pending = [(2, [0, 1])] ∧
      mergeChains (extendChainsMap (initPass twoRootsCfg).chains) [0, 1] = some [none] ∧
      createDominatorTree twoRootsCfg 1 = some twoRootsTree ∧
      twoRootsTree.parents = [] ∧
      alookup 2 twoRootsTree.parents = none ∧
      alookup 2 twoRootsTree.chains = some [none] ∧
      twoRootsTree.pending = [] := by decide

/-- Claim C4 (amended): whenever a merge attempt for a pending node succeeds
(every candidate's chain known and the working list non-empty after all
truncations), the node's resolved chain is stored (later possibly extended),
the node is removed from the pending set, and a tree edge from the working
list's first entry to the node is recorded exactly when that first entry is
an actual node; when it is the no-dominator sentinel, no edge is recorded and
the node remains parentless. -/
theorem c4_merge_success_effects (cfg : ControlFlowGraph) (fuel : Nat)
    (s t : BuildState) (pre post : List (Nat × List Nat)) (n : Nat)
    (cands : List Nat) (w : Chain)
    (hcl : EdgesClosed cfg) (gs : GoodState cfg s)
    (hpend : s.pending = pre ++ (n, cands) :: post)
    (hmerge : mergeChains (processPendingAux cfg pre (extendChainsMap s.chains)
        s.parents []).1 cands = some w)
    (hrun : runLoop cfg fuel s = some t) :
    (∃ l, alookup n t.chains = some l ∧ w <+: l) ∧
      n ∉ keysOf t.pending ∧
      (∀ d, w.head? = some (some d) → alookup n t.parents = some d) ∧
      (w.head? = some none → alookup n t.parents = none) := by
  obtain ⟨hchain, hpendout, hpar, hparnone⟩ := step_resolves hcl gs hpend hmerge
  have hne : s.pending ≠ [] := by rw [hpend]; simp
  rcases runLoop_cases hrun with ⟨hp, -⟩ | ⟨-, f', hf, hrun'⟩
  · exact absurd hp hne
  · obtain ⟨gs', -, -, -, -⟩ := stepState_good hcl gs
    obtain ⟨-, hpempty, hpar', hparnone', hpre', -⟩ :=
      runLoop_facts hcl f' (stepState cfg s) t gs' hrun'
    refine ⟨?_, ?_, ?_, ?_⟩
    · obtain ⟨l2, hl2⟩ := hpre' n w hchain
      exact ⟨w ++ l2, hl2, ⟨l2, rfl⟩⟩
    · rw [hpempty]
      simp [keysOf]
    · intro d hd
      exact hpar' n d (hpar d hd)
    · intro hd
      exact hparnone' n (by rw [hchain]; rfl) (hparnone hd)

/-- Witness for the amended C4, at the sentinel case itself: node 2 of
`twoRootsCfg` is resolved with working list `[none]`, its chain is stored, it
leaves the pending set, and it gets no parent. -/
theorem c4_witness :
    (initPass twoRootsCfg).pending = [] ++ (2, [0, 1]) :: [] ∧
      mergeChains (processPendingAux twoRootsCfg [] (extendChainsMap (initPass twoRootsCfg).chains)
          (initPass twoRootsCfg).parents []).1 [0, 1] = some [none] ∧
      runLoop twoRootsCfg 1 (initPass twoRootsCfg) = some twoRootsTree ∧
      (∃ l, alookup 2 twoRootsTree.chains = some l ∧ [none] <+: l) ∧
      alookup 2 twoRootsTree.parents = none := by
  have h := c4_merge_success_effects twoRootsCfg 1 (initPass twoRootsCfg) twoRootsTree
    [] [] 2 [0, 1] [none] (by decide) (initPass_good (by decide) (by decide))
    (by decide) (by decide) (by decide)
  exact ⟨by decide, by decide, by decide, h.1, h.2.2.2 rfl⟩

/-- The parallel-edge CFG: two distinct edges 0→1. -/
def parallelCfg : ControlFlowGraph :=
  { nodes := [0, 1],
    edges := [{ source := 0, target := 1, isBackEdge := false, isWorkGroupLoop := false },
              { source := 0, target := 1, isBackEdge := false, isWorkGroupLoop := false }] }

/-- Witness for C10: node 1 of the parallel-edge CFG has two parallel
qualifying edges from 0, candidate set `[0]`, is resolved directly with
parent 0 and never deferred. -/
theorem c10_witness :
    EdgesClosed parallelCfg ∧ parallelCfg.nodes.Nodup ∧
      getDominatorCandidates parallelCfg 1 = [0] ∧
      alookup 1 (initPass parallelCfg).pending = none ∧
      alookup 1 (initPass parallelCfg).parents = some 0 := by
  refine ⟨by decide, by decide, ?_⟩
  have := c10_parallel_edges_single_candidate parallelCfg 1 0 (by decide) (by decide)
    (by decide) (by decide)
    ⟨{ source := 0, target := 1, isBackEdge := false, isWorkGroupLoop := false },
      by decide, rfl, rfl, rfl, rfl⟩
    (by decide)
  exact this

/-! ### Claim C5 -/

/-- A state that one whole loop iteration does not change, with a non-empty
pending set, spins forever: the loop never terminates for any fuel. -/
theorem runLoop_fixpoint_none {cfg : ControlFlowGraph} :
    ∀ (fuel : Nat) (s : BuildState), stepState cfg s = s → s.pending ≠ [] →
      runLoop cfg fuel s = none := by
  intro fuel
  induction fuel with
  | zero =>
    intro s _ hne
    unfold runLoop
    rw [if_neg hne]
  | succ fuel ih =>
    intro s hstep hne
    unfold runLoop
    rw [if_neg hne, hstep]
    exact ih s hstep hne

/-- Construction spins forever on this CFG: for every iteration budget the
pending set stays non-empty. -/
def divergesOn (cfg : ControlFlowGraph) : Prop :=
  ∀ fuel, createDominatorTree cfg fuel = none

/-- One step of forward reachability along CFG edges. -/
def edgeReachStep (cfg : ControlFlowGraph) (cur : List Nat) : List Nat :=
  cur ++ cfg.nodes.filter fun n =>
    !cur.contains n && cfg.edges.any fun e => decide (e.target = n) && cur.contains e.source

/-- Every node reachable from `e` along CFG edges (within `|nodes|` steps). -/
def edgeReachSet (cfg : ControlFlowGraph) (e : Nat) : List Nat :=
  Nat.iterate (edgeReachStep cfg) cfg.nodes.length [e]

/-- Modelled from the claim's well-formedness wording: the CFG has a single
entry (the unique node with no dominator candidates) from which every node is
reachable along CFG edges.  With every node reachable, no merge cycle is
orphaned. -/
def specWellFormed (cfg : ControlFlowGraph) : Bool :=
  match cfg.nodes.filter (fun n => (getDominatorCandidates cfg n).isEmpty) with
  | [e] => cfg.nodes.all fun n => (edgeReachSet cfg e).contains n
  | _ => false

/-- The irreducible-merge CFG: entry 0 with edges 0→1, 0→2, 1→2, 2→1 and no
back-edge or work-group-loop flags.  Both 1 and 2 are multi-candidate merge
nodes whose candidate sets mention each other. -/
def irreducibleCfg : ControlFlowGraph :=
  { nodes := [0, 1, 2],
    edges := [{ source := 0, target := 1, isBackEdge := false, isWorkGroupLoop := false },
              { source := 0, target := 2, isBackEdge := false, isWorkGroupLoop := false },
              { source := 1, target := 2, isBackEdge := false, isWorkGroupLoop := false },
              { source := 2, target := 1, isBackEdge := false, isWorkGroupLoop := false }] }

/-- Counterexample to claim C5 as stated: `irreducibleCfg` is well-formed in the
claim's sense (single entry 0, every node reachable, no orphaned merge
cycles — the 1↔2 merge cycle is reachable from the entry), yet the pending
set `{1, 2}` never shrinks: each node's merge waits on the other's unknown
chain, the loop state is a fixpoint and construction never terminates. -/
theorem c5_counterexample :
    specWellFormed irreducibleCfg = true ∧
      stepState irreducibleCfg (initPass irreducibleCfg) = initPass irreducibleCfg ∧
      (initPass irreducibleCfg).pending ≠ [] ∧
      divergesOn irreducibleCfg := by
  refine ⟨by decide, by decide, by decide, ?_⟩
  intro fuel
  exact runLoop_fixpoint_none fuel (initPass irreducibleCfg) (by decide) (by decide)

/-- Claim C5 (amended): construction terminates provided every iteration of the
merge loop that starts with a non-empty pending set resolves at least one
pending node; an iteration budget equal to the initial pending-set size then
suffices.  (The unamended claim fails: a well-formed CFG can deadlock the
pending set, see the counterexample.) -/
theorem c5_termination_under_progress (cfg : ControlFlowGraph) :
    ∀ (m : Nat) (s : BuildState), s.pending.length ≤ m →
      (∀ k, k < m → ((stepState cfg)^[k] s).pending ≠ [] →
        ((stepState cfg)^[k + 1] s).pending.length <
          ((stepState cfg)^[k] s).pending.length) →
      ∃ t, runLoop cfg m s = some t := by
  intro m
  induction m with
  | zero =>
    intro s hlen _
    have hp : s.pending = [] := List.length_eq_zero.mp (by omega)
    refine ⟨s, ?_⟩
    unfold runLoop
    rw [if_pos hp]
  | succ m ih =>
    intro s hlen hprog
    by_cases hp : s.pending = []
    · refine ⟨s, ?_⟩
      unfold runLoop
      rw [if_pos hp]
    · have h0 := hprog 0 (by omega) (by simpa using hp)
      simp only [zero_add, Function.iterate_one, Function.iterate_zero, id_eq] at h0
      have hlen' : (stepState cfg s).pending.length ≤ m := by omega
      have hprog' : ∀ k, k < m → ((stepState cfg)^[k] (stepState cfg s)).pending ≠ [] →
          ((stepState cfg)^[k + 1] (stepState cfg s)).pending.length <
            ((stepState cfg)^[k] (stepState cfg s)).pending.length := by
        intro k hk hne
        rw [← Function.iterate_succ_apply]
        rw [← Function.iterate_succ_apply] at hne
        have := hprog (k + 1) (by omega) hne
        rwa [← Function.iterate_succ_apply]
      obtain ⟨t, ht⟩ := ih (stepState cfg s) hlen' hprog'
      refine ⟨t, ?_⟩
      unfold runLoop
      rw [if_neg hp]
      exact ht

/-- Witness for the amended C5 at the diamond CFG: one pending node, one
iteration of progress, termination with fuel 1. -/
theorem c5_witness :
    (initPass diamondCfg).pending.length ≤ 1 ∧
      (∃ t, runLoop diamondCfg 1 (initPass diamondCfg) = some t) := by
  refine ⟨by decide, ?_⟩
  exact c5_termination_under_progress diamondCfg 1 (initPass diamondCfg) (by decide) (by decide)

/-! ### Claim C6 -/

theorem parentIter_one {pa : List (Nat × Nat)} (m : Nat) :
    parentIter pa 1 m = alookup m pa := by
  unfold parentIter
  cases alookup m pa <;> rfl

theorem parentIter_succ_right {pa : List (Nat × Nat)} (i n : Nat) :
    parentIter pa (i + 1) n = (parentIter pa i n).bind fun m => alookup m pa := by
  rw [parentIter_add i 1 n]
  cases parentIter pa i n with
  | none => rfl
  | some m =>
    rw [Option.some_bind, Option.some_bind]
    exact parentIter_one m

/-- One step of reachability along candidate edges (edges that are neither
back-edges nor work-group-loop edges and do not come from the node itself). -/
def candReachStep (cfg : ControlFlowGraph) (cur : List Nat) : List Nat :=
  cur ++ cfg.nodes.filter fun n =>
    !cur.contains n && (getDominatorCandidates cfg n).any fun c => cur.contains c

/-- The candidate-free nodes — the roots of the dominance construction. -/
def candRoots (cfg : ControlFlowGraph) : List Nat :=
  cfg.nodes.filter fun n => (getDominatorCandidates cfg n).isEmpty

/-- The nodes reachable from the roots along candidate edges. -/
def candReachSet (cfg : ControlFlowGraph) : List Nat :=
  Nat.iterate (candReachStep cfg) cfg.nodes.length (candRoots cfg)

/-- In a completed run, every node reachable from the roots along candidate
edges has a parent walk that terminates. -/
theorem final_grounded {cfg : ControlFlowGraph} {t : BuildState}
    (gt : GoodState cfg t) :
    ∀ j, ∀ x ∈ (candReachStep cfg)^[j] (candRoots cfg), Grounded t.parents x := by
  intro j
  induction j with
  | zero =>
    intro x hx
    simp only [Function.iterate_zero, id_eq] at hx
    have hx' := List.mem_filter.mp hx
    have hempty : getDominatorCandidates cfg x = [] := by
      simpa [List.isEmpty_iff] using hx'.2
    exact grounded_of_no_parent (gt.core.no_cand x hempty)
  | succ j ihj =>
    intro x hx
    rw [Function.iterate_succ_apply'] at hx
    have hx' : x ∈ ((candReachStep cfg)^[j] (candRoots cfg)) ++ (cfg.nodes.filter fun n =>
        !((candReachStep cfg)^[j] (candRoots cfg)).contains n &&
          (getDominatorCandidates cfg n).any fun c =>
            ((candReachStep cfg)^[j] (candRoots cfg)).contains c) := hx
    rcases List.mem_append.mp hx' with hold | hnew
    · exact ihj x hold
    · have hf := List.mem_filter.mp hnew
      have hany := hf.2
      simp only [Bool.and_eq_true, List.any_eq_true] at hany
      obtain ⟨-, c, hcmem, hcur⟩ := hany
      have hcprev : c ∈ (candReachStep cfg)^[j] (candRoots cfg) := by simpa using hcur
      have hcg : Grounded t.parents c := ihj c hcprev
      cases hpar : alookup x t.parents with
      | none => exact grounded_of_no_parent hpar
      | some d =>
        obtain ⟨k, hk⟩ := gt.core.parent_dom x d hpar c hcmem
        exact grounded_step hpar (grounded_of_iter hk hcg)

/-- A node with a terminating parent walk is never its own ancestor. -/
theorem grounded_no_self_ancestor {pa : List (Nat × Nat)} {n : Nat}
    (hg : Grounded pa n) : ∀ k, 1 ≤ k → parentIter pa k n ≠ some n := by
  intro k hk hcycle
  obtain ⟨k0, hk0⟩ := hg
  have hper : ∀ j : Nat, parentIter pa (j * k) n = some n := by
    intro j
    induction j with
    | zero => rw [Nat.zero_mul]; rfl
    | succ j ihj =>
      have hmul : (j + 1) * k = j * k + k := by ring
      rw [hmul, parentIter_add, ihj, Option.some_bind, hcycle]
  have hge : k0 ≤ k0 * k := Nat.le_mul_of_pos_right k0 (by omega)
  have hnone := parentIter_none_mono hk0 (k0 * k) hge
  rw [hper k0] at hnone
  exact Option.noConfusion hnone

/-- A terminating parent walk whose values stay inside a duplicate-free node
universe reaches a parentless node within `|nodes|` steps. -/
theorem grounded_walk_bound {pa : List (Nat × Nat)} {nodes : List Nat} {n : Nat}
    (hn : n ∈ nodes) (hvals : ∀ m d, alookup m pa = some d → d ∈ nodes)
    (hg : Grounded pa n) :
    ∃ k, k ≤ nodes.length ∧ parentIter pa k n = none := by
  classical
  have hk0 : parentIter pa (Nat.find hg) n = none := Nat.find_spec hg
  set k0 := Nat.find hg with hk0def
  have hmin : ∀ j, j < k0 → parentIter pa j n ≠ none := fun j hj => Nat.find_min hg hj
  have hsome : ∀ i, i < k0 → ∃ x, parentIter pa i n = some x ∧ x ∈ nodes := by
    intro i
    induction i with
    | zero => intro _; exact ⟨n, rfl, hn⟩
    | succ i ihi =>
      intro hi
      obtain ⟨x, hx, hxn⟩ := ihi (by omega)
      cases hy : parentIter pa (i + 1) n with
      | none => exact absurd hy (hmin (i + 1) hi)
      | some y =>
        refine ⟨y, rfl, ?_⟩
        rw [parentIter_succ_right, hx, Option.some_bind] at hy
        exact hvals x y hy
  have hinj : ∀ i j, i < k0 → j < k0 → parentIter pa i n = parentIter pa j n → i = j := by
    have haux : ∀ i j, i < j → j < k0 → parentIter pa i n = parentIter pa j n → False := by
      intro i j hij hj heq
      have h1 : parentIter pa (i + (k0 - j)) n = parentIter pa (j + (k0 - j)) n := by
        rw [parentIter_add, parentIter_add, heq]
      have h2 : j + (k0 - j) = k0 := by omega
      rw [h2, hk0] at h1
      exact hmin (i + (k0 - j)) (by omega) h1
    intro i j hi hj heq
    rcases Nat.lt_trichotomy i j with h | h | h
    · exact absurd (haux i j h hj heq) not_false
    · exact h
    · exact absurd (haux j i h hi heq.symm) not_false
  have hLnodup : ((List.range k0).map fun i => parentIter pa i n).Nodup :=
    List.Nodup.map_on
      (fun i hi j hj heq => hinj i j (List.mem_range.mp hi) (List.mem_range.mp hj) heq)
      (List.nodup_range k0)
  have hLsub : ∀ e ∈ (List.range k0).map fun i => parentIter pa i n,
      e ∈ nodes.map some := by
    intro e he
    simp only [List.mem_map, List.mem_range] at he
    obtain ⟨i, hi, rfl⟩ := he
    obtain ⟨x, hx, hxn⟩ := hsome i hi
    rw [hx]
    exact List.mem_map.mpr ⟨x, hxn, rfl⟩
  have hcard1 : ((List.range k0).map fun i => parentIter pa i n).toFinset.card = k0 := by
    rw [List.toFinset_card_of_nodup hLnodup]
    simp
  have hsubF : ((List.range k0).map fun i => parentIter pa i n).toFinset ⊆
      (nodes.map some).toFinset := by
    intro e he
    rw [List.mem_toFinset] at he ⊢
    exact hLsub e he
  have hbound : k0 ≤ nodes.length := by
    rw [← hcard1]
    refine le_trans (Finset.card_le_card hsubF) (le_trans (List.toFinset_card_le _) ?_)
    simp
  exact ⟨k0, hbound, hk0⟩

/-- The CFG whose entry reaches the rest of the graph only through an excluded
(back) edge: 0→1 flagged as a back edge, plus the cycle 1→2, 2→1. -/
def backEdgeEntryCfg : ControlFlowGraph :=
  { nodes := [0, 1, 2],
    edges := [{ source := 0, target := 1, isBackEdge := true, isWorkGroupLoop := false },
              { source := 1, target := 2, isBackEdge := false, isWorkGroupLoop := false },
              { source := 2, target := 1, isBackEdge := false, isWorkGroupLoop := false }] }

/-- The build state `backEdgeEntryCfg` produces (phase 1 resolves everything). -/
def backEdgeEntryTree : BuildState :=
  { treeNodes := [2, 1, 0],
    parents := [(2, 1), (1, 2)],
    chains := [(2, [some 1, some 2]), (1, [some 2]), (0, [none])],
    pending := [] }

/-- Counterexample to claim C6 as stated: `backEdgeEntryCfg` is well-formed in
the claim's sense (single entry 0 with no candidates, every node reachable
from it along CFG edges, no orphaned cycles), the builder completes, yet the
produced "tree" contains the parent cycle 1→2→1: node 1 is its own ancestor
(two parent steps return to it) and its parent walk never reaches a
parentless root.  Nodes 1 and 2 see each other as their single dominator
candidate because the only other path into the cycle is the excluded back
edge. -/
theorem c6_counterexample :
    specWellFormed backEdgeEntryCfg = true ∧
      createDominatorTree backEdgeEntryCfg 0 = some backEdgeEntryTree ∧
      alookup 1 backEdgeEntryTree.parents = some 2 ∧
      alookup 2 backEdgeEntryTree.parents = some 1 ∧
      parentIter backEdgeEntryTree.parents 2 1 = some 1 ∧
      (∀ k, k ≤ 3 → parentIter backEdgeEntryTree.parents k 1 ≠ none) := by decide

/-- Claim C6 (amended): if additionally every CFG node is reachable from the
candidate-free roots through candidate edges (edges that are neither
back-edges nor work-group-loop edges — reachability through excluded edges is
not enough, see the counterexample), then in every tree the builder produces,
every node has exactly one incoming tree edge if it has a parent and none
otherwise, no node is its own ancestor, and following parent links reaches a
parentless node in at most as many steps as there are CFG nodes. -/
theorem c6_tree_invariants (cfg : ControlFlowGraph) (fuel : Nat) (t : BuildState)
    (hcl : EdgesClosed cfg) (hnodup : cfg.nodes.Nodup)
    (hreach : ∀ n ∈ cfg.nodes, n ∈ candReachSet cfg)
    (ht : createDominatorTree cfg fuel = some t) :
    ∀ n ∈ cfg.nodes,
      ((alookup n t.parents).isSome → List.count n (keysOf t.parents) = 1) ∧
        (alookup n t.parents = none → List.count n (keysOf t.parents) = 0) ∧
        (∀ k, 1 ≤ k → parentIter t.parents k n ≠ some n) ∧
        (∃ k, k ≤ cfg.nodes.length ∧ parentIter t.parents k n = none) := by
  obtain ⟨gt, hpend, hres⟩ := createDominatorTree_final hcl hnodup ht
  intro n hn
  have hg : Grounded t.parents n :=
    final_grounded gt cfg.nodes.length n (hreach n hn)
  refine ⟨?_, ?_, grounded_no_self_ancestor hg, grounded_walk_bound hn gt.core.parents_vals hg⟩
  · intro hs
    have hmem : n ∈ keysOf t.parents := alookup_isSome_iff.mp hs
    have hle := List.nodup_iff_count_le_one.mp gt.core.parents_nodup n
    have hpos := List.count_pos_iff.mpr hmem
    omega
  · intro hnone
    exact List.count_eq_zero.mpr (alookup_eq_none_iff.mp hnone)

/-- Witness for the amended C6 at the diamond CFG: node 3 has exactly one
parent and its parent walk reaches the parentless entry within 4 steps. -/
theorem c6_witness :
    EdgesClosed diamondCfg ∧ diamondCfg.nodes.Nodup ∧
      (∀ n ∈ diamondCfg.nodes, n ∈ candReachSet diamondCfg) ∧
      List.count 3 (keysOf diamondTree.parents) = 1 ∧
      (∃ k, k ≤ diamondCfg.nodes.length ∧ parentIter diamondTree.parents k 3 = none) := by
  have h := c6_tree_invariants diamondCfg 1 diamondTree (by decide) (by decide)
    (by decide) (by decide) 3 (by decide)
  exact ⟨by decide, by decide, by decide, h.1 (by decide), h.2.2.2⟩

end VC4C
